import Mathlib

/-!
Verification of the spatial indexing and periodic-domain management
subsystem (NNPS) of pysph, as described by its specification.

The repository ships only the test suite for this subsystem
(`base/tests/test_periodic_nnps.py`, `parallel/tests/test_openmp.py`);
the implementation module `pysph.base.nnps` (the `DomainManager` and the
four backends `BoxSortNNPS`, `LinkedListNNPS`, `SpatialHashNNPS`,
`ExtendedSpatialHashNNPS`) is not part of the sources.  Every definition
below is therefore modelled from the specification text; doc comments
mark the provenance.  Positions and smoothing lengths are embedded as
exact rationals, and the Euclidean-distance comparison is carried out on
squared distances (exactly as a float implementation compares squared
norms against a squared radius).  The model is three-dimensional; a 2D
configuration is the special case where every `z` coordinate is `0`
(cells outside the `z = 0` slab are then empty, so probing 27 instead
of 9 offsets returns identical results).
-/

namespace PySPHNNPS

/-- Modelled from the spec: a particle of a particle array carries a
position and a per-particle smoothing length `h` (§3 Data Model,
Particle Array collaborator). -/
structure Particle where
  x : ℚ
  y : ℚ
  z : ℚ
  h : ℚ
deriving DecidableEq, Repr

/-- Element lookup in a particle list, with an inert default outside
the valid index range (queries only ever index below the length). -/
def pAt (ps : List Particle) (j : ℕ) : Particle :=
  ps.getD j ⟨0, 0, 0, 0⟩

/-- Squared Euclidean distance between two particle positions. -/
def dist2 (p q : Particle) : ℚ :=
  (p.x - q.x) ^ 2 + (p.y - q.y) ^ 2 + (p.z - q.z) ^ 2

/-- Modelled from the spec: the per-pair interaction radius
`radius_scale * 0.5 * (h_i + h_j)` — the averaging convention the
specification fixes for every backend (§4.3, §9). -/
def pairRadius (rs : ℚ) (d s : Particle) : ℚ :=
  rs * ((d.h + s.h) / 2)

/-- The neighbor test every backend applies:
`|pos_d - pos_s| <= radius_scale * 0.5*(h_d + h_s)`, compared on
squared quantities. -/
def nbrCheck (rs : ℚ) (d s : Particle) : Bool :=
  decide (dist2 d s ≤ pairRadius rs d s ^ 2)

/-- Modelled from the spec: the "true neighbor" semantics of
`get_nearest_particles` (§1, §4.3) — every source-array index `j` whose
position lies within the per-pair interaction radius of destination
particle `d`, enumerated by brute force. -/
def bruteNbrs (rs : ℚ) (ps : List Particle) (d : Particle) : List ℕ :=
  (List.range ps.length).filter (fun j => nbrCheck rs d (pAt ps j))

/-- Modelled from the spec: `cell_coordinate(position, cell_size, origin)`
floor-divides each axis of `(position - origin)` by `cell_size` (§4.2);
floor, not truncation, so negative coordinates map consistently. -/
def cellCoord (s : ℚ) (o : ℚ × ℚ × ℚ) (p : Particle) : ℤ × ℤ × ℤ :=
  (⌊(p.x - o.1) / s⌋, ⌊(p.y - o.2.1) / s⌋, ⌊(p.z - o.2.2) / s⌋)

/-- The integers `-k, …, k`, used to enumerate relative cell offsets. -/
def offRange (k : ℕ) : List ℤ :=
  (List.range (2 * k + 1)).map (fun (i : ℕ) => (i : ℤ) - (k : ℤ))

/-- Modelled from the spec: `neighbor_cell_offsets` (§4.2), generalized
to radius `k`; `offsetsCube 1` is the fixed 27-offset block
`{-1,0,1}^3` (its 2D restriction being the 9-offset block). -/
def offsetsCube (k : ℕ) : List (ℤ × ℤ × ℤ) :=
  (offRange k).flatMap (fun a =>
    (offRange k).flatMap (fun b =>
      (offRange k).map (fun c => (a, b, c))))

/-- Modelled from the spec: the contents of one cell of the box-sort
backend's map from cell coordinate to particle indices — `build()`
re-inserts every particle of the array by its cell coordinate (§4.3),
so cell `c` holds exactly the indices whose cell coordinate is `c`, in
insertion (index) order. -/
def cellBucket (s : ℚ) (o : ℚ × ℚ × ℚ) (ps : List Particle) (c : ℤ × ℤ × ℤ) : List ℕ :=
  (List.range ps.length).filter (fun j => decide (cellCoord s o (pAt ps j) = c))

/-- Modelled from the spec: `query` of the box-sort backend (§4.3):
compute the destination particle's cell, enumerate the 27 neighbor
offsets, and keep each candidate `j` of a probed cell that passes the
exact distance check `|pos_d - pos_j| <= radius_scale*0.5*(h_d+h_j)`. -/
def boxSortQuery (rs s : ℚ) (o : ℚ × ℚ × ℚ) (ps : List Particle) (d : Particle) : List ℕ :=
  ((offsetsCube 1).flatMap (fun off => cellBucket s o ps (cellCoord s o d + off))).filter
    (fun j => decide (dist2 d (pAt ps j) ≤ (rs * ((d.h + (pAt ps j).h) / 2)) ^ 2))

/-- Modelled from the spec: the linked-list backend's state — a "head"
map from cell id to the last particle inserted into that cell, and a
per-particle "next" pointer forming a singly linked chain within each
cell (§4.4). -/
structure LLState where
  head : ℤ × ℤ × ℤ → Option ℕ
  next : ℕ → Option ℕ

/-- Modelled from the spec: `build()` of the linked-list backend inserts
particles `0, …, k-1` in index order, each by its cell coordinate, in
O(1) at the head of its cell's chain (§4.4). -/
def llBuild (s : ℚ) (o : ℚ × ℚ × ℚ) (ps : List Particle) : ℕ → LLState
  | 0 => ⟨fun _ => none, fun _ => none⟩
  | k + 1 =>
    ⟨fun c' => if c' = cellCoord s o (pAt ps k) then some k else (llBuild s o ps k).head c',
     fun j => if j = k then (llBuild s o ps k).head (cellCoord s o (pAt ps k))
              else (llBuild s o ps k).next j⟩

/-- Traversal of one cell chain of the linked-list structure; the fuel
argument bounds the chain length (`build` over `n` particles produces
chains of length at most `n`). -/
def llChain (next : ℕ → Option ℕ) : ℕ → Option ℕ → List ℕ
  | 0, _ => []
  | _ + 1, none => []
  | fuel + 1, some j => j :: llChain next fuel (next j)

/-- Modelled from the spec: `query` of the linked-list backend — the same
cell geometry, 27-offset enumeration and exact distance test
`|pos_d - pos_j| <= radius_scale*0.5*(h_d+h_j)` as box-sort, with cell
contents obtained by traversing the head/next chains (§4.4). -/
def llQuery (rs s : ℚ) (o : ℚ × ℚ × ℚ) (ps : List Particle) (d : Particle) : List ℕ :=
  ((offsetsCube 1).flatMap (fun off =>
    llChain (llBuild s o ps ps.length).next ps.length
      ((llBuild s o ps ps.length).head (cellCoord s o d + off)))).filter
    (fun j => decide (dist2 d (pAt ps j) ≤ (rs * ((d.h + (pAt ps j).h) / 2)) ^ 2))

/-- Modelled from the spec: `spatial_hash(cell_coordinate, table_size)` —
combines the three integer cell coordinates via fixed multiplicative
mixing constants (identical across runs, for reproducibility) and
reduces modulo the table size; collisions are expected and handled by
the bucket's chaining (§4.2). -/
def spatialHash (c : ℤ × ℤ × ℤ) (tableSize : ℕ) : ℕ :=
  (c.1 * 73856093 + c.2.1 * 19349663 + c.2.2 * 83492791).natAbs % tableSize

/-- Modelled from the spec: one chained bucket of the spatial-hash
backend's table — `build()` inserts every particle under its cell's
hash key, chaining collisions (§4.5). -/
def hashBucket (s : ℚ) (o : ℚ × ℚ × ℚ) (ps : List Particle) (tableSize key : ℕ) : List ℕ :=
  (List.range ps.length).filter
    (fun j => decide (spatialHash (cellCoord s o (pAt ps j)) tableSize = key))

/-- Modelled from the spec: `query` of the spatial-hash backend — the
box-sort offset enumeration and the same exact distance test, where each
probed cell's candidates come from the hash bucket of the cell's key and
must additionally pass the true cell-coordinate equality check that
resolves hash collisions (§4.5). -/
def shQuery (rs s : ℚ) (o : ℚ × ℚ × ℚ) (tableSize : ℕ) (ps : List Particle) (d : Particle) :
    List ℕ :=
  ((offsetsCube 1).flatMap (fun off =>
    (hashBucket s o ps tableSize (spatialHash (cellCoord s o d + off) tableSize)).filter
      (fun j => decide (cellCoord s o (pAt ps j) = cellCoord s o d + off)))).filter
    (fun j => decide (dist2 d (pAt ps j) ≤ (rs * ((d.h + (pAt ps j).h) / 2)) ^ 2))

/-- Modelled from the spec: the discretized size "level" of a particle
in the extended spatial-hash backend — cell size doubles per level and
each particle is bucketed by its own `h` (§4.6): the smallest level `l`
whose cell size `base * 2^l` accommodates `radius_scale * h`. -/
def levelOf (base rs : ℚ) (p : Particle) : ℕ :=
  Nat.clog 2 (⌈rs * p.h / base⌉.toNat)

/-- Modelled from the spec: the cell size of level `l` of the extended
spatial-hash backend — the base cell size, doubling per level (§4.6). -/
def levelCellSize (base : ℚ) (l : ℕ) : ℚ := base * 2 ^ l

/-- The highest size level occupied by any particle of the array. -/
def maxLevel (base rs : ℚ) (ps : List Particle) : ℕ :=
  ps.foldr (fun p m => max (levelOf base rs p) m) 0

/-- Modelled from the spec: one chained bucket of one level's hash table
in the extended spatial-hash backend — `build()` inserts every particle
into the table of its own size level under its cell's hash key
(§4.6). -/
def eshBucket (base rs : ℚ) (o : ℚ × ℚ × ℚ) (ps : List Particle) (tableSize l key : ℕ) :
    List ℕ :=
  (List.range ps.length).filter (fun j =>
    decide (levelOf base rs (pAt ps j) = l) &&
      decide (spatialHash (cellCoord (levelCellSize base l) o (pAt ps j)) tableSize = key))

/-- The number of adjacent cells (per axis) probed at level `l` for a
destination particle `d`: enough cells of size `base * 2^l` to cover the
largest possible per-pair interaction radius with a particle stored at
that level, so larger particles are found by smaller ones and vice
versa (§4.6 cross-level probing). -/
def eshProbe (base rs : ℚ) (d : Particle) (l : ℕ) : ℕ :=
  ⌈(rs * d.h + levelCellSize base l) / (2 * levelCellSize base l)⌉.toNat

/-- Modelled from the spec: `query` of the extended spatial-hash backend
— probes every occupied size level (covering every level down to the
destination's own size, §4.6), enumerating at each level the block of
cells wide enough for that level's pairs, resolving hash collisions by
the true cell-coordinate check, and applying the same exact distance
test as every other backend. -/
def eshQuery (base rs : ℚ) (o : ℚ × ℚ × ℚ) (tableSize : ℕ) (ps : List Particle) (d : Particle) :
    List ℕ :=
  ((List.range (maxLevel base rs ps + 1)).flatMap (fun l =>
    (offsetsCube (eshProbe base rs d l)).flatMap (fun off =>
      (eshBucket base rs o ps tableSize l
          (spatialHash (cellCoord (levelCellSize base l) o d + off) tableSize)).filter
        (fun j => decide (cellCoord (levelCellSize base l) o (pAt ps j) =
          cellCoord (levelCellSize base l) o d + off))))).filter
    (fun j => decide (dist2 d (pAt ps j) ≤ (rs * ((d.h + (pAt ps j).h) / 2)) ^ 2))

/-- Modelled from the spec: the construction arguments of the Domain
Manager — optional per-axis `(min, max)` bounds and three independent
periodicity flags (§3 Periodicity Flags, §4.1 `configure`); every axis
not mentioned at construction keeps its default: no bounds,
non-periodic. -/
structure DomainConfig where
  xbounds : Option (ℚ × ℚ) := none
  ybounds : Option (ℚ × ℚ) := none
  zbounds : Option (ℚ × ℚ) := none
  periodic_in_x : Bool := false
  periodic_in_y : Bool := false
  periodic_in_z : Bool := false
deriving DecidableEq, Repr

/-- Modelled from the spec: a configured Domain Manager holding per-axis
bounds and the periodicity flags (§4.1); axes without bounds carry the
zero-width default. -/
structure DomainManager where
  xmin : ℚ := 0
  xmax : ℚ := 0
  ymin : ℚ := 0
  ymax : ℚ := 0
  zmin : ℚ := 0
  zmax : ℚ := 0
  periodic_in_x : Bool := false
  periodic_in_y : Bool := false
  periodic_in_z : Bool := false
deriving DecidableEq, Repr

/-- Modelled from the spec: `ConfigurationError` — invalid or missing
periodic bounds, fatal and reported at configuration time (§7). -/
inductive ConfigurationError where
  | invalidPeriodicBounds : ConfigurationError
deriving DecidableEq, Repr

/-- Modelled from the spec: the per-axis validation of `configure` — a
periodic axis must have bounds present and `min < max` (§3 invariant,
§4.1). -/
def axisOk (b : Option (ℚ × ℚ)) (per : Bool) : Bool :=
  !per ||
    (match b with
     | none => false
     | some (lo, hi) => decide (lo < hi))

/-- Bounds of an axis, defaulting to the zero-width `(0, 0)`. -/
def boundsOrZero : Option (ℚ × ℚ) → ℚ × ℚ
  | none => (0, 0)
  | some b => b

/-- Modelled from the spec: `configure(bounds_per_axis,
periodicity_per_axis)` — validates that every periodic axis has finite,
non-degenerate bounds, failing with `ConfigurationError` if a periodic
axis lacks bounds or has `min >= max`; the error is reported immediately
at configuration time and is fatal, never retried (§4.1, §7). -/
def configure (c : DomainConfig) : Except ConfigurationError DomainManager :=
  if axisOk c.xbounds c.periodic_in_x && axisOk c.ybounds c.periodic_in_y &&
      axisOk c.zbounds c.periodic_in_z then
    Except.ok
      { xmin := (boundsOrZero c.xbounds).1, xmax := (boundsOrZero c.xbounds).2,
        ymin := (boundsOrZero c.ybounds).1, ymax := (boundsOrZero c.ybounds).2,
        zmin := (boundsOrZero c.zbounds).1, zmax := (boundsOrZero c.zbounds).2,
        periodic_in_x := c.periodic_in_x, periodic_in_y := c.periodic_in_y,
        periodic_in_z := c.periodic_in_z }
  else Except.error ConfigurationError.invalidPeriodicBounds

/-- Modelled from the spec: the `is_periodic` introspection flag — the
domain is periodic when any axis is (§6). -/
def DomainManager.is_periodic (dm : DomainManager) : Bool :=
  dm.periodic_in_x || dm.periodic_in_y || dm.periodic_in_z

/-- Axis-aligned bounding box over the three axes; the all-zero default
is the empty box. -/
structure BBox where
  xmin : ℚ := 0
  xmax : ℚ := 0
  ymin : ℚ := 0
  ymax : ℚ := 0
  zmin : ℚ := 0
  zmax : ℚ := 0
deriving DecidableEq, Repr

/-- A box is valid when each axis has `min ≤ max`. -/
def BBox.valid (b : BBox) : Prop :=
  b.xmin ≤ b.xmax ∧ b.ymin ≤ b.ymax ∧ b.zmin ≤ b.zmax

/-- Modelled from the spec: the box covering a single particle's
position ± its interaction radius (smoothing length × the global radius
scale) on every axis (§3 Bounding Box, §4.1 `compute_bounding_box`). -/
def particleBox (rs : ℚ) (p : Particle) : BBox :=
  { xmin := p.x - rs * p.h, xmax := p.x + rs * p.h,
    ymin := p.y - rs * p.h, ymax := p.y + rs * p.h,
    zmin := p.z - rs * p.h, zmax := p.z + rs * p.h }

/-- Expansion of a bounding box by one particle's extent. -/
def expandBBox (rs : ℚ) (b : BBox) (p : Particle) : BBox :=
  { xmin := min b.xmin (p.x - rs * p.h), xmax := max b.xmax (p.x + rs * p.h),
    ymin := min b.ymin (p.y - rs * p.h), ymax := max b.ymax (p.y + rs * p.h),
    zmin := min b.zmin (p.z - rs * p.h), zmax := max b.zmax (p.z + rs * p.h) }

/-- Modelled from the spec: `compute_bounding_box(arrays)` — scans every
particle array's positions and per-particle radii and returns the
smallest enclosing box; empty arrays are skipped, and zero particles
overall yield the empty (all-zero) valid box rather than an error
(§4.1, failure semantics §4.1/§7). -/
def computeBBox (rs : ℚ) (arrays : List (List Particle)) : BBox :=
  match arrays.flatMap id with
  | [] => {}
  | p :: rest => rest.foldl (expandBBox rs) (particleBox rs p)

/-- Modelled from the spec: a ghost particle — a synthesized, translated
copy of a real particle carrying a back-reference to its originating
real particle index (§3 Ghost Particle). -/
structure Ghost where
  p : Particle
  src : ℕ
deriving DecidableEq, Repr

/-- Modelled from the spec: the periodic translations applicable to a
particle along the x axis — a particle within one interaction radius of
a periodic axis's boundary is translated by the full period
`max - min`, with `+period` near `min` and `-period` near `max`
(§4.1 `update_ghosts`). -/
def xShifts (dm : DomainManager) (rs : ℚ) (p : Particle) : List ℚ :=
  if dm.periodic_in_x then
    (if p.x ≤ dm.xmin + rs * p.h then [dm.xmax - dm.xmin] else []) ++
      (if dm.xmax - rs * p.h ≤ p.x then [-(dm.xmax - dm.xmin)] else [])
  else []

/-- The y-axis analogue of `xShifts`. -/
def yShifts (dm : DomainManager) (rs : ℚ) (p : Particle) : List ℚ :=
  if dm.periodic_in_y then
    (if p.y ≤ dm.ymin + rs * p.h then [dm.ymax - dm.ymin] else []) ++
      (if dm.ymax - rs * p.h ≤ p.y then [-(dm.ymax - dm.ymin)] else [])
  else []

/-- The z-axis analogue of `xShifts`. -/
def zShifts (dm : DomainManager) (rs : ℚ) (p : Particle) : List ℚ :=
  if dm.periodic_in_z then
    (if p.z ≤ dm.zmin + rs * p.h then [dm.zmax - dm.zmin] else []) ++
      (if dm.zmax - rs * p.h ≤ p.z then [-(dm.zmax - dm.zmin)] else [])
  else []

/-- Translation of a particle by a per-axis shift (the smoothing length
is untouched: a ghost is a copy of its source). -/
def translate (p : Particle) (t : ℚ × ℚ × ℚ) : Particle :=
  { p with x := p.x + t.1, y := p.y + t.2.1, z := p.z + t.2.2 }

/-- Modelled from the spec: the applicable periodic-axis combinations
for one particle — every combination of per-axis shifts (no shift, or a
full-period shift the particle is near enough to trigger), except the
all-zero combination (§3 Ghost Particle: "generating ghosts for every
combination of periodic axes the particle is near"). -/
def shiftCombos (dm : DomainManager) (rs : ℚ) (p : Particle) : List (ℚ × ℚ × ℚ) :=
  ((0 :: xShifts dm rs p).flatMap (fun sx =>
    (0 :: yShifts dm rs p).flatMap (fun sy =>
      (0 :: zShifts dm rs p).map (fun sz => (sx, sy, sz))))).filter
    (fun t => decide (t ≠ ((0 : ℚ), (0 : ℚ), (0 : ℚ))))

/-- Modelled from the spec: the ghosts synthesized from one real
particle — one per applicable combination of periodic axes the particle
is near (corner/edge cases in 2D/3D produce diagonal ghosts too), each
translated by the full period per involved axis and carrying the
originating index (§3 Ghost Particle, §4.1 `update_ghosts`). -/
def ghostsFor (dm : DomainManager) (rs : ℚ) (idx : ℕ) (p : Particle) : List Ghost :=
  (((0 :: xShifts dm rs p).flatMap (fun sx =>
    (0 :: yShifts dm rs p).flatMap (fun sy =>
      (0 :: zShifts dm rs p).map (fun sz => (sx, sy, sz))))).filter
    (fun t => decide (t ≠ ((0 : ℚ), (0 : ℚ), (0 : ℚ))))).map
    (fun t => { p := translate p t, src := idx })

/-- Modelled from the spec: `update_ghosts(arrays)` over one array's
real particles — ghosts are regenerated from scratch from the real
segment on every rebuild, never persisted or mutated in place (§3 Ghost
Particle, §4.1 `update_ghosts`). -/
def computeGhosts (dm : DomainManager) (rs : ℚ) (reals : List Particle) : List Ghost :=
  (List.range reals.length).flatMap (fun i => ghostsFor dm rs i (pAt reals i))

/-- Modelled from the spec: the particle-array collaborator — real
particles, the ghost segment appended after all real particles, and
named per-particle properties; the numeric payload of the named
properties plays no role in spatial indexing, so the model keeps only
the property names (§2, §3, §6). -/
structure ParticleArray where
  reals : List Particle
  ghosts : List Ghost
  props : List String
deriving DecidableEq, Repr

/-- Modelled from the spec: `add_property(name)` of the particle-array
interface (§6) — adds a named property, leaving positions, smoothing
lengths and the ghost segment untouched. -/
def addProperty (pa : ParticleArray) (nm : String) : ParticleArray :=
  { pa with props := pa.props ++ [nm] }

/-- The combined real+ghost index space of an array: ghosts are appended
after all real particles (§3 Ghost Particle, §6). -/
def allParticles (pa : ParticleArray) : List Particle :=
  pa.reals ++ pa.ghosts.map Ghost.p

/-- Modelled from the spec: `update_domain()` — recomputes the ghost
segment from the real particles, replacing (recompute-and-replace, not
append) any previous ghost segment; backends then rebuild from scratch
over the combined array (§4.1 `update_ghosts`, §6 `update_domain`). -/
def updateDomain (dm : DomainManager) (rs : ℚ) (pa : ParticleArray) : ParticleArray :=
  { pa with ghosts := computeGhosts dm rs pa.reals }

/-- Contiguous partition of a work list into `t` thread-local chunks of
size `sz` (§5: thread-local staging buffers). -/
def chunkList (sz : ℕ) : ℕ → List ℕ → List (List ℕ)
  | 0, _ => []
  | t + 1, l => l.take sz :: chunkList sz t (l.drop sz)

/-- Modelled from the spec: the thread-parallel `build()` of one cell of
the cell map — particle indices are partitioned into `t` contiguous
thread-local staging buffers, each buffer stages its own particles, and
the buffers are merged in fixed thread order at the end, deterministic
in the thread count (§5). -/
def parCellBucket (t : ℕ) (s : ℚ) (o : ℚ × ℚ × ℚ) (ps : List Particle) (c : ℤ × ℤ × ℤ) :
    List ℕ :=
  ((chunkList ((ps.length + t - 1) / t) t (List.range ps.length)).map
    (fun ch => ch.filter (fun j => decide (cellCoord s o (pAt ps j) = c)))).flatten

/-- The box-sort query running over the thread-parallel build. -/
def parBoxSortQuery (t : ℕ) (rs s : ℚ) (o : ℚ × ℚ × ℚ) (ps : List Particle) (d : Particle) :
    List ℕ :=
  ((offsetsCube 1).flatMap (fun off => parCellBucket t s o ps (cellCoord s o d + off))).filter
    (fun j => decide (dist2 d (pAt ps j) ≤ (rs * ((d.h + (pAt ps j).h) / 2)) ^ 2))

/-- Modelled from the spec: the global maximum smoothing length over the
source array and the destination, from which the single fixed cell size
of the box-sort, linked-list and spatial-hash backends is derived
(§3 Cell, §4.3). -/
def globalMaxH (ps : List Particle) (d : Particle) : ℚ :=
  ps.foldr (fun p m => max p.h m) d.h

theorem mem_offRange {k : ℕ} {a : ℤ} : a ∈ offRange k ↔ -(k : ℤ) ≤ a ∧ a ≤ k := by
  unfold offRange
  simp only [List.mem_map, List.mem_range]
  constructor
  · rintro ⟨i, hi, rfl⟩
    omega
  · rintro ⟨h1, h2⟩
    exact ⟨(a + k).toNat, by omega, by omega⟩

theorem offRange_nodup (k : ℕ) : (offRange k).Nodup := by
  unfold offRange
  refine List.Nodup.map (fun i j hij => ?_) (List.nodup_range _)
  simp only at hij
  omega

theorem mem_offsetsCube {k : ℕ} {t : ℤ × ℤ × ℤ} :
    t ∈ offsetsCube k ↔
      (-(k : ℤ) ≤ t.1 ∧ t.1 ≤ k) ∧ (-(k : ℤ) ≤ t.2.1 ∧ t.2.1 ≤ k) ∧
        (-(k : ℤ) ≤ t.2.2 ∧ t.2.2 ≤ k) := by
  obtain ⟨a, b, c⟩ := t
  unfold offsetsCube
  simp only [List.mem_flatMap, List.mem_map, Prod.mk.injEq]
  constructor
  · rintro ⟨a', ha, b', hb, c', hc, rfl, rfl, rfl⟩
    exact ⟨mem_offRange.mp ha, mem_offRange.mp hb, mem_offRange.mp hc⟩
  · rintro ⟨ha, hb, hc⟩
    exact ⟨a, mem_offRange.mpr ha, b, mem_offRange.mpr hb, c, mem_offRange.mpr hc, rfl, rfl, rfl⟩

theorem offsetsCube_nodup (k : ℕ) : (offsetsCube k).Nodup := by
  unfold offsetsCube
  apply List.nodup_flatMap.mpr
  constructor
  · intro a _
    apply List.nodup_flatMap.mpr
    constructor
    · intro b _
      refine List.Nodup.map (fun c c' hcc => ?_) (offRange_nodup k)
      exact (Prod.mk.injEq .. ▸ (Prod.mk.injEq .. ▸ hcc).2).2
    · refine (offRange_nodup k).pairwise_of_forall_ne (fun b _ b' _ hbb => ?_)
      intro t ht1 ht2
      simp only [Function.onFun, List.mem_map] at ht1 ht2
      obtain ⟨c, _, rfl⟩ := ht1
      obtain ⟨c', _, heq⟩ := ht2
      exact hbb (congrArg (fun u : ℤ × ℤ × ℤ => u.2.1) heq).symm
  · refine (offRange_nodup k).pairwise_of_forall_ne (fun a _ a' _ haa => ?_)
    intro t ht1 ht2
    simp only [Function.onFun, List.mem_flatMap, List.mem_map] at ht1 ht2
    obtain ⟨b, _, c, _, rfl⟩ := ht1
    obtain ⟨b', _, c', _, heq⟩ := ht2
    exact haa (congrArg (fun u : ℤ × ℤ × ℤ => u.1) heq).symm

theorem floor_pair {u v : ℚ} {k : ℕ} (h : |u - v| ≤ (k : ℚ)) : |⌊u⌋ - ⌊v⌋| ≤ (k : ℤ) := by
  obtain ⟨h1, h2⟩ := abs_le.mp h
  rw [abs_le]
  constructor
  · have : ⌊v⌋ ≤ ⌊u + ((k : ℤ) : ℚ)⌋ := Int.floor_le_floor (by push_cast; linarith)
    rw [Int.floor_add_int] at this
    omega
  · have : ⌊u⌋ ≤ ⌊v + ((k : ℤ) : ℚ)⌋ := Int.floor_le_floor (by push_cast; linarith)
    rw [Int.floor_add_int] at this
    omega

/-- Key cell-grid fact: positions within `k` cell sizes of each other on an
axis land in cells whose integer coordinates differ by at most `k`. -/
theorem axis_floor_bound (s a b oq : ℚ) (k : ℕ) (hs : 0 < s) (h : |a - b| ≤ (k : ℚ) * s) :
    |⌊(a - oq) / s⌋ - ⌊(b - oq) / s⌋| ≤ (k : ℤ) := by
  apply floor_pair
  have heq : (a - oq) / s - (b - oq) / s = (a - b) / s := by ring
  rw [heq, abs_div, abs_of_pos hs, div_le_iff₀ hs]
  exact h

/-- Each coordinate difference is bounded by the Euclidean pair distance. -/
theorem axis_of_dist2 {d q : Particle} {r : ℚ} (hr : 0 ≤ r) (h : dist2 d q ≤ r ^ 2) :
    |d.x - q.x| ≤ r ∧ |d.y - q.y| ≤ r ∧ |d.z - q.z| ≤ r := by
  unfold dist2 at h
  refine ⟨abs_le_of_sq_le_sq (by nlinarith [sq_nonneg (d.y - q.y), sq_nonneg (d.z - q.z)]) hr,
    abs_le_of_sq_le_sq (by nlinarith [sq_nonneg (d.x - q.x), sq_nonneg (d.z - q.z)]) hr,
    abs_le_of_sq_le_sq (by nlinarith [sq_nonneg (d.x - q.x), sq_nonneg (d.y - q.y)]) hr⟩

/-- If the pair distance is within `k` cell sizes, the source particle's cell
lies in the `(2k+1)^3` block centered on the destination's cell. -/
theorem cell_in_block {s : ℚ} {o : ℚ × ℚ × ℚ} {d q : Particle} {r : ℚ} {k : ℕ}
    (hs : 0 < s) (hr : 0 ≤ r) (hrs : r ≤ (k : ℚ) * s) (h : dist2 d q ≤ r ^ 2) :
    cellCoord s o q - cellCoord s o d ∈ offsetsCube k := by
  obtain ⟨hx, hy, hz⟩ := axis_of_dist2 hr h
  rw [abs_sub_comm] at hx hy hz
  apply mem_offsetsCube.mpr
  have bx := axis_floor_bound s q.x d.x o.1 k hs (le_trans hx hrs)
  have by' := axis_floor_bound s q.y d.y o.2.1 k hs (le_trans hy hrs)
  have bz := axis_floor_bound s q.z d.z o.2.2 k hs (le_trans hz hrs)
  unfold cellCoord
  simp only [Prod.fst_sub, Prod.snd_sub]
  exact ⟨abs_le.mp bx, abs_le.mp by', abs_le.mp bz⟩

theorem pAt_mem {ps : List Particle} {j : ℕ} (hj : j < ps.length) : pAt ps j ∈ ps := by
  unfold pAt
  rw [List.getD_eq_getElem ps _ hj]
  exact List.getElem_mem hj

theorem mem_cellBucket {s : ℚ} {o : ℚ × ℚ × ℚ} {ps : List Particle} {c : ℤ × ℤ × ℤ} {j : ℕ} :
    j ∈ cellBucket s o ps c ↔ j < ps.length ∧ cellCoord s o (pAt ps j) = c := by
  unfold cellBucket
  simp [List.mem_filter, List.mem_range]

theorem cellBucket_nodup (s : ℚ) (o : ℚ × ℚ × ℚ) (ps : List Particle) (c : ℤ × ℤ × ℤ) :
    (cellBucket s o ps c).Nodup :=
  (List.nodup_range _).filter _

theorem bruteNbrs_nodup (rs : ℚ) (ps : List Particle) (d : Particle) :
    (bruteNbrs rs ps d).Nodup :=
  (List.nodup_range _).filter _

theorem mem_bruteNbrs {rs : ℚ} {ps : List Particle} {d : Particle} {j : ℕ} :
    j ∈ bruteNbrs rs ps d ↔
      j < ps.length ∧ dist2 d (pAt ps j) ≤ (rs * ((d.h + (pAt ps j).h) / 2)) ^ 2 := by
  unfold bruteNbrs nbrCheck pairRadius
  simp [List.mem_filter, List.mem_range]

theorem mem_boxSortQuery {rs s : ℚ} {o : ℚ × ℚ × ℚ} {ps : List Particle} {d : Particle} {j : ℕ}
    (hs : 0 < s)
    (hcov : ∀ p ∈ ps, 0 ≤ rs * ((d.h + p.h) / 2) ∧ rs * ((d.h + p.h) / 2) ≤ s) :
    j ∈ boxSortQuery rs s o ps d ↔
      j < ps.length ∧ dist2 d (pAt ps j) ≤ (rs * ((d.h + (pAt ps j).h) / 2)) ^ 2 := by
  unfold boxSortQuery
  rw [List.mem_filter]
  simp only [List.mem_flatMap, decide_eq_true_eq]
  constructor
  · rintro ⟨⟨off, _, hb⟩, hd⟩
    exact ⟨(mem_cellBucket.mp hb).1, hd⟩
  · rintro ⟨hj, hd⟩
    obtain ⟨hr0, hrs⟩ := hcov (pAt ps j) (pAt_mem hj)
    refine ⟨⟨cellCoord s o (pAt ps j) - cellCoord s o d, ?_, ?_⟩, hd⟩
    · exact cell_in_block hs hr0 (by rwa [Nat.cast_one, one_mul]) hd
    · exact mem_cellBucket.mpr ⟨hj, by ring⟩

theorem boxSortQuery_nodup (rs s : ℚ) (o : ℚ × ℚ × ℚ) (ps : List Particle) (d : Particle) :
    (boxSortQuery rs s o ps d).Nodup := by
  apply List.Nodup.filter
  apply List.nodup_flatMap.mpr
  constructor
  · exact fun off _ => cellBucket_nodup s o ps _
  · refine (offsetsCube_nodup 1).pairwise_of_forall_ne (fun off _ off' _ hne => ?_)
    intro t ht1 ht2
    simp only [Function.onFun] at ht1 ht2
    have h1 := (mem_cellBucket.mp ht1).2
    have h2 := (mem_cellBucket.mp ht2).2
    exact hne (add_left_cancel (h1.symm.trans h2))

/-- The box-sort query agrees with the brute-force neighbor list (as a
multiset) whenever the cell size covers every per-pair interaction
radius of the destination. -/
theorem boxSort_perm_brute {rs s : ℚ} {o : ℚ × ℚ × ℚ} {ps : List Particle} {d : Particle}
    (hs : 0 < s)
    (hcov : ∀ p ∈ ps, 0 ≤ rs * ((d.h + p.h) / 2) ∧ rs * ((d.h + p.h) / 2) ≤ s) :
    (boxSortQuery rs s o ps d).Perm (bruteNbrs rs ps d) := by
  apply List.perm_of_nodup_nodup_toFinset_eq (boxSortQuery_nodup rs s o ps d)
    (bruteNbrs_nodup rs ps d)
  apply List.toFinset.ext
  intro j
  rw [mem_boxSortQuery hs hcov, mem_bruteNbrs]

theorem llChain_congr {next next' : ℕ → Option ℕ} :
    ∀ (fuel : ℕ) (st0 : Option ℕ),
      (∀ j ∈ llChain next fuel st0, next' j = next j) →
      llChain next' fuel st0 = llChain next fuel st0 := by
  intro fuel
  induction fuel with
  | zero => intro st0 _; rfl
  | succ f ih =>
    intro st0 h
    cases st0 with
    | none => rfl
    | some j =>
      have hj : next' j = next j := h j (by simp [llChain])
      simp only [llChain, hj]
      refine congrArg _ (ih (next j) (fun j' hj' => h j' ?_))
      simp [llChain, hj']

theorem llChain_build (s : ℚ) (o : ℚ × ℚ × ℚ) (ps : List Particle) :
    ∀ (k fuel : ℕ), k ≤ fuel → ∀ c,
      llChain (llBuild s o ps k).next fuel ((llBuild s o ps k).head c) =
        ((List.range k).filter (fun j => decide (cellCoord s o (pAt ps j) = c))).reverse := by
  intro k
  induction k with
  | zero =>
    intro fuel _ c
    cases fuel <;> simp [llBuild, llChain]
  | succ k ih =>
    intro fuel hf c
    obtain ⟨f, rfl⟩ : ∃ f, fuel = f + 1 := ⟨fuel - 1, by omega⟩
    have hmem : ∀ fuel', k ≤ fuel' → ∀ c' j,
        j ∈ llChain (llBuild s o ps k).next fuel' ((llBuild s o ps k).head c') → j < k := by
      intro fuel' hf' c' j hj
      rw [ih fuel' hf' c'] at hj
      have := List.mem_filter.mp (List.mem_reverse.mp hj)
      exact List.mem_range.mp this.1
    by_cases hc : c = cellCoord s o (pAt ps k)
    · subst hc
      have hhead : (llBuild s o ps (k + 1)).head (cellCoord s o (pAt ps k)) = some k := by
        simp [llBuild]
      rw [hhead]
      simp only [llChain]
      have hnext : (llBuild s o ps (k + 1)).next k =
          (llBuild s o ps k).head (cellCoord s o (pAt ps k)) := by
        simp [llBuild]
      rw [hnext]
      have hcong : llChain (llBuild s o ps (k + 1)).next f
            ((llBuild s o ps k).head (cellCoord s o (pAt ps k))) =
          llChain (llBuild s o ps k).next f
            ((llBuild s o ps k).head (cellCoord s o (pAt ps k))) := by
        apply llChain_congr
        intro j hj
        have hjk : j < k := hmem f (by omega) _ j hj
        simp [llBuild, Nat.ne_of_lt hjk]
      rw [hcong, ih f (by omega)]
      rw [List.range_succ, List.filter_append]
      simp [pAt]
    · have hhead : (llBuild s o ps (k + 1)).head c = (llBuild s o ps k).head c := by
        simp [llBuild, hc]
      rw [hhead]
      have hcong : llChain (llBuild s o ps (k + 1)).next (f + 1) ((llBuild s o ps k).head c) =
          llChain (llBuild s o ps k).next (f + 1) ((llBuild s o ps k).head c) := by
        apply llChain_congr
        intro j hj
        have hjk : j < k := hmem (f + 1) (by omega) _ j hj
        simp [llBuild, Nat.ne_of_lt hjk]
      rw [hcong, ih (f + 1) (by omega)]
      rw [List.range_succ, List.filter_append]
      have : (cellCoord s o (pAt ps k) = c) = False := by
        simp [Ne.symm hc]
      simp [this]

theorem llQuery_perm_boxSort (rs s : ℚ) (o : ℚ × ℚ × ℚ) (ps : List Particle) (d : Particle) :
    (llQuery rs s o ps d).Perm (boxSortQuery rs s o ps d) := by
  unfold llQuery boxSortQuery
  apply List.Perm.filter
  apply List.Perm.flatMap_left
  intro off _
  rw [llChain_build s o ps ps.length ps.length le_rfl]
  exact (cellBucket s o ps _).reverse_perm

theorem hashBucket_cell_filter (s : ℚ) (o : ℚ × ℚ × ℚ) (ps : List Particle)
    (tableSize : ℕ) (c : ℤ × ℤ × ℤ) :
    (hashBucket s o ps tableSize (spatialHash c tableSize)).filter
        (fun j => decide (cellCoord s o (pAt ps j) = c)) =
      cellBucket s o ps c := by
  unfold hashBucket cellBucket
  rw [List.filter_filter]
  apply List.filter_congr
  intro j _
  by_cases h : cellCoord s o (pAt ps j) = c
  · simp [h]
  · simp [h]

theorem shQuery_eq_boxSort (rs s : ℚ) (o : ℚ × ℚ × ℚ) (tableSize : ℕ) (ps : List Particle)
    (d : Particle) :
    shQuery rs s o tableSize ps d = boxSortQuery rs s o ps d := by
  unfold shQuery boxSortQuery
  congr 1
  apply congrArg
  funext off
  exact hashBucket_cell_filter s o ps tableSize (cellCoord s o d + off)

theorem levelCellSize_pos {base : ℚ} (hbase : 0 < base) (l : ℕ) : 0 < levelCellSize base l := by
  unfold levelCellSize
  positivity

/-- A particle's own scaled smoothing length fits inside the cell size of
its assigned level. -/
theorem level_covers {base rs : ℚ} (hbase : 0 < base) (hrs : 0 < rs) {p : Particle}
    (hp : 0 < p.h) : rs * p.h ≤ levelCellSize base (levelOf base rs p) := by
  have hq : 0 < rs * p.h / base := by positivity
  have h1 : 0 < ⌈rs * p.h / base⌉ := Int.ceil_pos.mpr hq
  have h2 : ((⌈rs * p.h / base⌉.toNat : ℤ) : ℚ) = ((⌈rs * p.h / base⌉ : ℤ) : ℚ) := by
    rw [Int.toNat_of_nonneg (le_of_lt h1)]
  have h3 : ⌈rs * p.h / base⌉.toNat ≤ 2 ^ Nat.clog 2 ⌈rs * p.h / base⌉.toNat :=
    Nat.le_pow_clog one_lt_two _
  have h4 : rs * p.h / base ≤ (2 : ℚ) ^ levelOf base rs p := by
    calc rs * p.h / base ≤ ((⌈rs * p.h / base⌉ : ℤ) : ℚ) := Int.le_ceil _
    _ = ((⌈rs * p.h / base⌉.toNat : ℤ) : ℚ) := h2.symm
    _ ≤ (2 : ℚ) ^ levelOf base rs p := by
        unfold levelOf
        exact_mod_cast h3
  unfold levelCellSize
  rw [div_le_iff₀ hbase] at h4
  linarith

/-- The probe window of a level covers the largest per-pair radius
involving any particle stored at that level. -/
theorem eshProbe_covers {base rs : ℚ} (hbase : 0 < base) (hrs : 0 < rs) {d : Particle}
    (hd : 0 < d.h) (l : ℕ) :
    (rs * d.h + levelCellSize base l) / 2 ≤
      (eshProbe base rs d l : ℚ) * levelCellSize base l := by
  have hsl : 0 < levelCellSize base l := levelCellSize_pos hbase l
  have ha : 0 < (rs * d.h + levelCellSize base l) / (2 * levelCellSize base l) := by positivity
  have h1 : 0 < ⌈(rs * d.h + levelCellSize base l) / (2 * levelCellSize base l)⌉ :=
    Int.ceil_pos.mpr ha
  have hnn : ((⌈(rs * d.h + levelCellSize base l) / (2 * levelCellSize base l)⌉.toNat : ℕ) : ℤ) =
      ⌈(rs * d.h + levelCellSize base l) / (2 * levelCellSize base l)⌉ :=
    Int.toNat_of_nonneg (le_of_lt h1)
  have h2 : ((rs * d.h + levelCellSize base l) / (2 * levelCellSize base l) : ℚ) ≤
      (eshProbe base rs d l : ℚ) := by
    unfold eshProbe
    calc (rs * d.h + levelCellSize base l) / (2 * levelCellSize base l) ≤
        ((⌈(rs * d.h + levelCellSize base l) / (2 * levelCellSize base l)⌉ : ℤ) : ℚ) :=
          Int.le_ceil _
    _ = _ := by exact_mod_cast congrArg (fun z : ℤ => (z : ℚ)) hnn.symm
  have h3 := mul_le_mul_of_nonneg_right h2 (le_of_lt hsl)
  calc (rs * d.h + levelCellSize base l) / 2 =
      (rs * d.h + levelCellSize base l) / (2 * levelCellSize base l) * levelCellSize base l := by
        field_simp
        ring
  _ ≤ (eshProbe base rs d l : ℚ) * levelCellSize base l := h3

theorem levelOf_le_maxLevel (base rs : ℚ) {ps : List Particle} {p : Particle} (hp : p ∈ ps) :
    levelOf base rs p ≤ maxLevel base rs ps := by
  unfold maxLevel
  induction ps with
  | nil => cases hp
  | cons q qs ih =>
    rcases List.mem_cons.mp hp with h | h
    · subst h
      exact le_max_left _ _
    · exact le_trans (ih h) (le_max_right _ _)

theorem mem_eshQuery {base rs : ℚ} {o : ℚ × ℚ × ℚ} {tableSize : ℕ} {ps : List Particle}
    {d : Particle} {j : ℕ} (hbase : 0 < base) (hrs : 0 < rs) (hd : 0 < d.h)
    (hh : ∀ p ∈ ps, 0 < p.h) :
    j ∈ eshQuery base rs o tableSize ps d ↔
      j < ps.length ∧ dist2 d (pAt ps j) ≤ (rs * ((d.h + (pAt ps j).h) / 2)) ^ 2 := by
  unfold eshQuery
  rw [List.mem_filter]
  simp only [List.mem_flatMap, List.mem_filter, decide_eq_true_eq, List.mem_range]
  constructor
  · rintro ⟨⟨l, hl, off, hoff, ⟨hb, hcell⟩⟩, hdist⟩
    unfold eshBucket at hb
    have := List.mem_filter.mp hb
    exact ⟨List.mem_range.mp this.1, hdist⟩
  · rintro ⟨hj, hdist⟩
    have hph : 0 < (pAt ps j).h := hh _ (pAt_mem hj)
    have hsl : 0 < levelCellSize base (levelOf base rs (pAt ps j)) := levelCellSize_pos hbase _
    have hr0 : 0 ≤ rs * ((d.h + (pAt ps j).h) / 2) := by positivity
    have hcover : rs * ((d.h + (pAt ps j).h) / 2) ≤
        (eshProbe base rs d (levelOf base rs (pAt ps j)) : ℚ) *
          levelCellSize base (levelOf base rs (pAt ps j)) := by
      have h1 : rs * (pAt ps j).h ≤ levelCellSize base (levelOf base rs (pAt ps j)) :=
        level_covers hbase hrs hph
      have h2 := eshProbe_covers hbase hrs hd (levelOf base rs (pAt ps j))
      calc rs * ((d.h + (pAt ps j).h) / 2) = (rs * d.h + rs * (pAt ps j).h) / 2 := by ring
      _ ≤ (rs * d.h + levelCellSize base (levelOf base rs (pAt ps j))) / 2 := by linarith
      _ ≤ _ := h2
    refine ⟨⟨levelOf base rs (pAt ps j), ?_,
      cellCoord (levelCellSize base (levelOf base rs (pAt ps j))) o (pAt ps j) -
        cellCoord (levelCellSize base (levelOf base rs (pAt ps j))) o d, ?_, ?_, by ring⟩, hdist⟩
    · have := levelOf_le_maxLevel base rs (pAt_mem hj)
      omega
    · exact cell_in_block hsl hr0 hcover hdist
    · unfold eshBucket
      refine List.mem_filter.mpr ⟨List.mem_range.mpr hj, ?_⟩
      simp only [Bool.and_eq_true, decide_eq_true_eq]
      exact ⟨trivial, by congr 1; ring⟩

theorem eshQuery_nodup (base rs : ℚ) (o : ℚ × ℚ × ℚ) (tableSize : ℕ) (ps : List Particle)
    (d : Particle) : (eshQuery base rs o tableSize ps d).Nodup := by
  unfold eshQuery
  apply List.Nodup.filter
  apply List.nodup_flatMap.mpr
  constructor
  · intro l _
    apply List.nodup_flatMap.mpr
    constructor
    · intro off _
      exact ((List.nodup_range _).filter _).filter _
    · refine (offsetsCube_nodup _).pairwise_of_forall_ne (fun off _ off' _ hne => ?_)
      intro t ht1 ht2
      simp only [Function.onFun, List.mem_filter, decide_eq_true_eq] at ht1 ht2
      exact hne (add_left_cancel (ht1.2.symm.trans ht2.2))
  · refine (List.nodup_range _).pairwise_of_forall_ne (fun l _ l' _ hne => ?_)
    intro t ht1 ht2
    simp only [Function.onFun, List.mem_flatMap, List.mem_filter] at ht1 ht2
    obtain ⟨off, _, hb1, _⟩ := ht1
    obtain ⟨off', _, hb2, _⟩ := ht2
    unfold eshBucket at hb1 hb2
    have h1 := (List.mem_filter.mp hb1).2
    have h2 := (List.mem_filter.mp hb2).2
    simp only [Bool.and_eq_true, decide_eq_true_eq] at h1 h2
    exact hne (h1.1.symm.trans h2.1)

/-- The extended spatial-hash query agrees with the brute-force neighbor
list (as a multiset) for positive radius scale and smoothing lengths. -/
theorem eshQuery_perm_brute {base rs : ℚ} {o : ℚ × ℚ × ℚ} {tableSize : ℕ} {ps : List Particle}
    {d : Particle} (hbase : 0 < base) (hrs : 0 < rs) (hd : 0 < d.h)
    (hh : ∀ p ∈ ps, 0 < p.h) :
    (eshQuery base rs o tableSize ps d).Perm (bruteNbrs rs ps d) := by
  apply List.perm_of_nodup_nodup_toFinset_eq (eshQuery_nodup base rs o tableSize ps d)
    (bruteNbrs_nodup rs ps d)
  apply List.toFinset.ext
  intro j
  rw [mem_eshQuery hbase hrs hd hh, mem_bruteNbrs]

theorem le_globalMaxH_self (ps : List Particle) (d : Particle) : d.h ≤ globalMaxH ps d := by
  unfold globalMaxH
  induction ps with
  | nil => exact le_refl _
  | cons q qs ih => exact le_trans ih (le_max_right _ _)

theorem le_globalMaxH_mem {ps : List Particle} {p : Particle} (hp : p ∈ ps) (d : Particle) :
    p.h ≤ globalMaxH ps d := by
  unfold globalMaxH
  induction ps with
  | nil => cases hp
  | cons q qs ih =>
    rcases List.mem_cons.mp hp with h | h
    · subst h
      exact le_max_left _ _
    · exact le_trans (ih h) (le_max_right _ _)

/-- The cell size derived from the global maximum smoothing length is
positive and covers every per-pair interaction radius, as §3 (Cell)
requires of grid backends. -/
theorem maxH_coverage {rs : ℚ} {ps : List Particle} {d : Particle} (hrs : 0 < rs)
    (hd : 0 < d.h) (hh : ∀ p ∈ ps, 0 < p.h) :
    0 < rs * globalMaxH ps d ∧
      ∀ p ∈ ps, 0 ≤ rs * ((d.h + p.h) / 2) ∧
        rs * ((d.h + p.h) / 2) ≤ rs * globalMaxH ps d := by
  have hG : 0 < globalMaxH ps d := lt_of_lt_of_le hd (le_globalMaxH_self ps d)
  refine ⟨by positivity, fun p hp => ?_⟩
  have hph := hh p hp
  have h1 := le_globalMaxH_self ps d
  have h2 := le_globalMaxH_mem hp d
  constructor
  · positivity
  · exact mul_le_mul_of_nonneg_left (by linarith) (le_of_lt hrs)

theorem chunkList_flatten (sz : ℕ) :
    ∀ (t : ℕ) (l : List ℕ), l.length ≤ sz * t → (chunkList sz t l).flatten = l := by
  intro t
  induction t with
  | zero =>
    intro l h
    have hl : l = [] := List.eq_nil_of_length_eq_zero (by omega)
    subst hl
    rfl
  | succ t ih =>
    intro l h
    rw [Nat.mul_succ] at h
    show (l.take sz :: chunkList sz t (l.drop sz)).flatten = l
    rw [List.flatten_cons, ih (l.drop sz) (by rw [List.length_drop]; omega)]
    exact List.take_append_drop sz l

theorem len_le_chunks (n t : ℕ) (ht : 0 < t) : n ≤ (n + t - 1) / t * t := by
  have hdm := Nat.div_add_mod (n + t - 1) t
  have hlt : (n + t - 1) % t < t := Nat.mod_lt _ ht
  rw [Nat.mul_comm]
  omega

theorem filter_flatten_map (p : ℕ → Bool) :
    ∀ L : List (List ℕ), (L.map (fun l => l.filter p)).flatten = L.flatten.filter p := by
  intro L
  induction L with
  | nil => rfl
  | cons l L ih =>
    rw [List.map_cons, List.flatten_cons, List.flatten_cons, List.filter_append, ih]

/-- With no periodic axis there is nothing to synthesize: the ghost
segment of a non-periodic configuration is empty. -/
theorem computeGhosts_nonperiodic {dm : DomainManager} (h : dm.is_periodic = false)
    (rs : ℚ) (reals : List Particle) : computeGhosts dm rs reals = [] := by
  unfold DomainManager.is_periodic at h
  simp only [Bool.or_eq_false_iff] at h
  obtain ⟨⟨hx, hy⟩, hz⟩ := h
  have h1 : ∀ i, ghostsFor dm rs i (pAt reals i) = [] := by
    intro i
    simp [ghostsFor, xShifts, yShifts, zShifts, hx, hy, hz]
  unfold computeGhosts
  simp [h1]

/-- Every ghost carries the smoothing length of one of the real
particles (translation leaves `h` untouched). -/
theorem ghost_h_mem {dm : DomainManager} {rs : ℚ} {reals : List Particle} {g : Ghost}
    (hg : g ∈ computeGhosts dm rs reals) : ∃ j, j < reals.length ∧ g.p.h = (pAt reals j).h := by
  unfold computeGhosts at hg
  simp only [List.mem_flatMap, List.mem_range] at hg
  obtain ⟨i, hi, hgf⟩ := hg
  unfold ghostsFor at hgf
  simp only [List.mem_map, List.mem_filter] at hgf
  obtain ⟨t, _, rfl⟩ := hgf
  exact ⟨i, hi, rfl⟩

theorem mem_tripleCombos {α β γ : Type} {l1 : List α} {l2 : List β} {l3 : List γ}
    {t : α × β × γ} :
    t ∈ l1.flatMap (fun a => l2.flatMap (fun b => l3.map (fun c => (a, b, c)))) ↔
      t.1 ∈ l1 ∧ t.2.1 ∈ l2 ∧ t.2.2 ∈ l3 := by
  obtain ⟨a, b, c⟩ := t
  simp only [List.mem_flatMap, List.mem_map, Prod.mk.injEq]
  constructor
  · rintro ⟨a', ha, b', hb, c', hc, rfl, rfl, rfl⟩
    exact ⟨ha, hb, hc⟩
  · rintro ⟨ha, hb, hc⟩
    exact ⟨a, ha, b, hb, c, hc, rfl, rfl, rfl⟩

theorem tripleCombos_nodup {α β γ : Type} {l1 : List α} {l2 : List β} {l3 : List γ}
    (h1 : l1.Nodup) (h2 : l2.Nodup) (h3 : l3.Nodup) :
    (l1.flatMap (fun a => l2.flatMap (fun b => l3.map (fun c => (a, b, c))))).Nodup := by
  apply List.nodup_flatMap.mpr
  constructor
  · intro a _
    apply List.nodup_flatMap.mpr
    constructor
    · intro b _
      refine List.Nodup.map (fun c c' hcc => ?_) h3
      exact (Prod.mk.injEq .. ▸ (Prod.mk.injEq .. ▸ hcc).2).2
    · refine h2.pairwise_of_forall_ne (fun b _ b' _ hbb => ?_)
      intro t ht1 ht2
      simp only [Function.onFun, List.mem_map] at ht1 ht2
      obtain ⟨c, _, rfl⟩ := ht1
      obtain ⟨c', _, heq⟩ := ht2
      exact hbb (congrArg (fun u : α × β × γ => u.2.1) heq).symm
  · refine h1.pairwise_of_forall_ne (fun a _ a' _ haa => ?_)
    intro t ht1 ht2
    simp only [Function.onFun, List.mem_flatMap, List.mem_map] at ht1 ht2
    obtain ⟨b, _, c, _, rfl⟩ := ht1
    obtain ⟨b', _, c', _, heq⟩ := ht2
    exact haa (congrArg (fun u : α × β × γ => u.1) heq).symm

theorem translate_inj {p : Particle} {t1 t2 : ℚ × ℚ × ℚ} (h : translate p t1 = translate p t2) :
    t1 = t2 := by
  obtain ⟨a1, b1, c1⟩ := t1
  obtain ⟨a2, b2, c2⟩ := t2
  have hx := congrArg Particle.x h
  have hy := congrArg Particle.y h
  have hz := congrArg Particle.z h
  simp only [translate] at hx hy hz
  have ha : a1 = a2 := by linarith
  have hb : b1 = b2 := by linarith
  have hc : c1 = c2 := by linarith
  rw [ha, hb, hc]

theorem ghostsFor_eq (dm : DomainManager) (rs : ℚ) (idx : ℕ) (p : Particle) :
    ghostsFor dm rs idx p =
      (shiftCombos dm rs p).map (fun t => { p := translate p t, src := idx }) :=
  rfl

theorem mem_shiftCombos {dm : DomainManager} {rs : ℚ} {p : Particle} (t : ℚ × ℚ × ℚ) :
    t ∈ shiftCombos dm rs p ↔
      t.1 ∈ 0 :: xShifts dm rs p ∧ t.2.1 ∈ 0 :: yShifts dm rs p ∧
        t.2.2 ∈ 0 :: zShifts dm rs p ∧ t ≠ ((0 : ℚ), (0 : ℚ), (0 : ℚ)) := by
  unfold shiftCombos
  rw [List.mem_filter, mem_tripleCombos]
  simp only [decide_eq_true_eq]
  tauto

theorem ghostsFor_src {dm : DomainManager} {rs : ℚ} {idx : ℕ} {p : Particle} {g : Ghost}
    (hg : g ∈ ghostsFor dm rs idx p) : g.src = idx := by
  rw [ghostsFor_eq] at hg
  obtain ⟨t, _, rfl⟩ := List.mem_map.mp hg
  rfl

theorem zeroCons_xShifts_nodup {dm : DomainManager} {rs : ℚ} {p : Particle}
    (hvx : dm.periodic_in_x = true → dm.xmin < dm.xmax) :
    ((0 : ℚ) :: xShifts dm rs p).Nodup := by
  unfold xShifts
  by_cases hpx : dm.periodic_in_x = true
  · rw [if_pos hpx]
    have hP : 0 < dm.xmax - dm.xmin := by linarith [hvx hpx]
    have e1 : (0 : ℚ) ≠ dm.xmax - dm.xmin := by intro hc; linarith
    have e2 : (0 : ℚ) ≠ -(dm.xmax - dm.xmin) := by intro hc; linarith
    have e3 : dm.xmax - dm.xmin ≠ -(dm.xmax - dm.xmin) := by intro hc; linarith
    split_ifs <;> simp_all
  · rw [if_neg hpx]
    simp

theorem zeroCons_yShifts_nodup {dm : DomainManager} {rs : ℚ} {p : Particle}
    (hvy : dm.periodic_in_y = true → dm.ymin < dm.ymax) :
    ((0 : ℚ) :: yShifts dm rs p).Nodup := by
  unfold yShifts
  by_cases hpy : dm.periodic_in_y = true
  · rw [if_pos hpy]
    have hP : 0 < dm.ymax - dm.ymin := by linarith [hvy hpy]
    have e1 : (0 : ℚ) ≠ dm.ymax - dm.ymin := by intro hc; linarith
    have e2 : (0 : ℚ) ≠ -(dm.ymax - dm.ymin) := by intro hc; linarith
    have e3 : dm.ymax - dm.ymin ≠ -(dm.ymax - dm.ymin) := by intro hc; linarith
    split_ifs <;> simp_all
  · rw [if_neg hpy]
    simp

theorem zeroCons_zShifts_nodup {dm : DomainManager} {rs : ℚ} {p : Particle}
    (hvz : dm.periodic_in_z = true → dm.zmin < dm.zmax) :
    ((0 : ℚ) :: zShifts dm rs p).Nodup := by
  unfold zShifts
  by_cases hpz : dm.periodic_in_z = true
  · rw [if_pos hpz]
    have hP : 0 < dm.zmax - dm.zmin := by linarith [hvz hpz]
    have e1 : (0 : ℚ) ≠ dm.zmax - dm.zmin := by intro hc; linarith
    have e2 : (0 : ℚ) ≠ -(dm.zmax - dm.zmin) := by intro hc; linarith
    have e3 : dm.zmax - dm.zmin ≠ -(dm.zmax - dm.zmin) := by intro hc; linarith
    split_ifs <;> simp_all
  · rw [if_neg hpz]
    simp

/-- The full-period shift towards `max` is synthesized exactly for a
particle within one interaction radius of a periodic x axis's `min`
boundary. -/
theorem mem_xShifts_plus {dm : DomainManager} {rs : ℚ} {p : Particle}
    (hvx : dm.periodic_in_x = true → dm.xmin < dm.xmax) :
    dm.xmax - dm.xmin ∈ xShifts dm rs p ↔
      dm.periodic_in_x = true ∧ p.x ≤ dm.xmin + rs * p.h := by
  unfold xShifts
  by_cases hpx : dm.periodic_in_x = true
  · rw [if_pos hpx]
    have hP : 0 < dm.xmax - dm.xmin := by linarith [hvx hpx]
    constructor
    · intro hmem
      rcases List.mem_append.mp hmem with h | h
      · refine ⟨hpx, ?_⟩
        by_cases hc : p.x ≤ dm.xmin + rs * p.h
        · exact hc
        · rw [if_neg hc] at h
          cases h
      · exfalso
        by_cases hc : dm.xmax - rs * p.h ≤ p.x
        · rw [if_pos hc] at h
          have := List.mem_singleton.mp h
          linarith
        · rw [if_neg hc] at h
          cases h
    · rintro ⟨_, hc⟩
      exact List.mem_append_left _ (by rw [if_pos hc]; exact List.mem_singleton.mpr rfl)
  · rw [if_neg hpx]
    simp [hpx]

/-- The full-period shift towards `min` is synthesized exactly for a
particle within one interaction radius of a periodic x axis's `max`
boundary. -/
theorem mem_xShifts_minus {dm : DomainManager} {rs : ℚ} {p : Particle}
    (hvx : dm.periodic_in_x = true → dm.xmin < dm.xmax) :
    -(dm.xmax - dm.xmin) ∈ xShifts dm rs p ↔
      dm.periodic_in_x = true ∧ dm.xmax - rs * p.h ≤ p.x := by
  unfold xShifts
  by_cases hpx : dm.periodic_in_x = true
  · rw [if_pos hpx]
    have hP : 0 < dm.xmax - dm.xmin := by linarith [hvx hpx]
    constructor
    · intro hmem
      rcases List.mem_append.mp hmem with h | h
      · exfalso
        by_cases hc : p.x ≤ dm.xmin + rs * p.h
        · rw [if_pos hc] at h
          have := List.mem_singleton.mp h
          linarith
        · rw [if_neg hc] at h
          cases h
      · refine ⟨hpx, ?_⟩
        by_cases hc : dm.xmax - rs * p.h ≤ p.x
        · exact hc
        · rw [if_neg hc] at h
          cases h
    · rintro ⟨_, hc⟩
      exact List.mem_append_right _ (by rw [if_pos hc]; exact List.mem_singleton.mpr rfl)
  · rw [if_neg hpx]
    simp [hpx]

/-- The y-axis analogue of `mem_xShifts_plus`. -/
theorem mem_yShifts_plus {dm : DomainManager} {rs : ℚ} {p : Particle}
    (hvy : dm.periodic_in_y = true → dm.ymin < dm.ymax) :
    dm.ymax - dm.ymin ∈ yShifts dm rs p ↔
      dm.periodic_in_y = true ∧ p.y ≤ dm.ymin + rs * p.h := by
  unfold yShifts
  by_cases hpy : dm.periodic_in_y = true
  · rw [if_pos hpy]
    have hP : 0 < dm.ymax - dm.ymin := by linarith [hvy hpy]
    constructor
    · intro hmem
      rcases List.mem_append.mp hmem with h | h
      · refine ⟨hpy, ?_⟩
        by_cases hc : p.y ≤ dm.ymin + rs * p.h
        · exact hc
        · rw [if_neg hc] at h
          cases h
      · exfalso
        by_cases hc : dm.ymax - rs * p.h ≤ p.y
        · rw [if_pos hc] at h
          have := List.mem_singleton.mp h
          linarith
        · rw [if_neg hc] at h
          cases h
    · rintro ⟨_, hc⟩
      exact List.mem_append_left _ (by rw [if_pos hc]; exact List.mem_singleton.mpr rfl)
  · rw [if_neg hpy]
    simp [hpy]

/-- The y-axis analogue of `mem_xShifts_minus`. -/
theorem mem_yShifts_minus {dm : DomainManager} {rs : ℚ} {p : Particle}
    (hvy : dm.periodic_in_y = true → dm.ymin < dm.ymax) :
    -(dm.ymax - dm.ymin) ∈ yShifts dm rs p ↔
      dm.periodic_in_y = true ∧ dm.ymax - rs * p.h ≤ p.y := by
  unfold yShifts
  by_cases hpy : dm.periodic_in_y = true
  · rw [if_pos hpy]
    have hP : 0 < dm.ymax - dm.ymin := by linarith [hvy hpy]
    constructor
    · intro hmem
      rcases List.mem_append.mp hmem with h | h
      · exfalso
        by_cases hc : p.y ≤ dm.ymin + rs * p.h
        · rw [if_pos hc] at h
          have := List.mem_singleton.mp h
          linarith
        · rw [if_neg hc] at h
          cases h
      · refine ⟨hpy, ?_⟩
        by_cases hc : dm.ymax - rs * p.h ≤ p.y
        · exact hc
        · rw [if_neg hc] at h
          cases h
    · rintro ⟨_, hc⟩
      exact List.mem_append_right _ (by rw [if_pos hc]; exact List.mem_singleton.mpr rfl)
  · rw [if_neg hpy]
    simp [hpy]

/-- The z-axis analogue of `mem_xShifts_plus`. -/
theorem mem_zShifts_plus {dm : DomainManager} {rs : ℚ} {p : Particle}
    (hvz : dm.periodic_in_z = true → dm.zmin < dm.zmax) :
    dm.zmax - dm.zmin ∈ zShifts dm rs p ↔
      dm.periodic_in_z = true ∧ p.z ≤ dm.zmin + rs * p.h := by
  unfold zShifts
  by_cases hpz : dm.periodic_in_z = true
  · rw [if_pos hpz]
    have hP : 0 < dm.zmax - dm.zmin := by linarith [hvz hpz]
    constructor
    · intro hmem
      rcases List.mem_append.mp hmem with h | h
      · refine ⟨hpz, ?_⟩
        by_cases hc : p.z ≤ dm.zmin + rs * p.h
        · exact hc
        · rw [if_neg hc] at h
          cases h
      · exfalso
        by_cases hc : dm.zmax - rs * p.h ≤ p.z
        · rw [if_pos hc] at h
          have := List.mem_singleton.mp h
          linarith
        · rw [if_neg hc] at h
          cases h
    · rintro ⟨_, hc⟩
      exact List.mem_append_left _ (by rw [if_pos hc]; exact List.mem_singleton.mpr rfl)
  · rw [if_neg hpz]
    simp [hpz]

/-- The z-axis analogue of `mem_xShifts_minus`. -/
theorem mem_zShifts_minus {dm : DomainManager} {rs : ℚ} {p : Particle}
    (hvz : dm.periodic_in_z = true → dm.zmin < dm.zmax) :
    -(dm.zmax - dm.zmin) ∈ zShifts dm rs p ↔
      dm.periodic_in_z = true ∧ dm.zmax - rs * p.h ≤ p.z := by
  unfold zShifts
  by_cases hpz : dm.periodic_in_z = true
  · rw [if_pos hpz]
    have hP : 0 < dm.zmax - dm.zmin := by linarith [hvz hpz]
    constructor
    · intro hmem
      rcases List.mem_append.mp hmem with h | h
      · exfalso
        by_cases hc : p.z ≤ dm.zmin + rs * p.h
        · rw [if_pos hc] at h
          have := List.mem_singleton.mp h
          linarith
        · rw [if_neg hc] at h
          cases h
      · refine ⟨hpz, ?_⟩
        by_cases hc : dm.zmax - rs * p.h ≤ p.z
        · exact hc
        · rw [if_neg hc] at h
          cases h
    · rintro ⟨_, hc⟩
      exact List.mem_append_right _ (by rw [if_pos hc]; exact List.mem_singleton.mpr rfl)
  · rw [if_neg hpz]
    simp [hpz]

theorem shiftCombos_nodup {dm : DomainManager} {rs : ℚ} {p : Particle}
    (hvx : dm.periodic_in_x = true → dm.xmin < dm.xmax)
    (hvy : dm.periodic_in_y = true → dm.ymin < dm.ymax)
    (hvz : dm.periodic_in_z = true → dm.zmin < dm.zmax) :
    (shiftCombos dm rs p).Nodup :=
  (tripleCombos_nodup (zeroCons_xShifts_nodup hvx) (zeroCons_yShifts_nodup hvy)
    (zeroCons_zShifts_nodup hvz)).filter _

theorem ghostsFor_nodup {dm : DomainManager} {rs : ℚ} {idx : ℕ} {p : Particle}
    (hvx : dm.periodic_in_x = true → dm.xmin < dm.xmax)
    (hvy : dm.periodic_in_y = true → dm.ymin < dm.ymax)
    (hvz : dm.periodic_in_z = true → dm.zmin < dm.zmax) :
    (ghostsFor dm rs idx p).Nodup := by
  rw [ghostsFor_eq]
  refine List.Nodup.map (fun t1 t2 h12 => ?_) (shiftCombos_nodup hvx hvy hvz)
  exact translate_inj (congrArg Ghost.p h12)

/-- The regenerated ghost segment never contains a duplicated ghost:
one ghost per real particle and applicable axis combination. -/
theorem computeGhosts_nodup {dm : DomainManager} {rs : ℚ}
    (hvx : dm.periodic_in_x = true → dm.xmin < dm.xmax)
    (hvy : dm.periodic_in_y = true → dm.ymin < dm.ymax)
    (hvz : dm.periodic_in_z = true → dm.zmin < dm.zmax)
    (reals : List Particle) : (computeGhosts dm rs reals).Nodup := by
  unfold computeGhosts
  apply List.nodup_flatMap.mpr
  constructor
  · intro i _
    exact ghostsFor_nodup hvx hvy hvz
  · refine (List.nodup_range _).pairwise_of_forall_ne (fun i _ i' _ hne => ?_)
    intro g hg1 hg2
    simp only [Function.onFun] at hg1 hg2
    exact hne ((ghostsFor_src hg1).symm.trans (ghostsFor_src hg2))

/-- Every applicable axis combination of a real particle yields its
ghost, translated by that combination, in the regenerated segment. -/
theorem ghost_mem_of_combo {dm : DomainManager} {rs : ℚ} {reals : List Particle} {j : ℕ}
    {t : ℚ × ℚ × ℚ} (hj : j < reals.length) (ht : t ∈ shiftCombos dm rs (pAt reals j)) :
    ({ p := translate (pAt reals j) t, src := j } : Ghost) ∈ computeGhosts dm rs reals := by
  unfold computeGhosts
  simp only [List.mem_flatMap, List.mem_range]
  refine ⟨j, hj, ?_⟩
  rw [ghostsFor_eq]
  exact List.mem_map_of_mem _ ht

/-- Real and ghost particles of an updated array all have positive
smoothing lengths when the real ones do. -/
theorem allParticles_h_pos {dm : DomainManager} {rs : ℚ} {pa : ParticleArray}
    (hh : ∀ p ∈ pa.reals, 0 < p.h) :
    ∀ p ∈ allParticles (updateDomain dm rs pa), 0 < p.h := by
  intro p hp
  unfold allParticles updateDomain at hp
  simp only at hp
  rcases List.mem_append.mp hp with h | h
  · exact hh p h
  · obtain ⟨g, hg, rfl⟩ := List.mem_map.mp h
    obtain ⟨j, hj, hgh⟩ := ghost_h_mem hg
    rw [hgh]
    exact hh _ (pAt_mem hj)

theorem axisOk_false_iff (b : Option (ℚ × ℚ)) (per : Bool) :
    axisOk b per = false ↔ per = true ∧ ∀ lo hi, b = some (lo, hi) → ¬lo < hi := by
  cases per
  · simp [axisOk]
  · cases b with
    | none => simp [axisOk]
    | some bb =>
      obtain ⟨lo, hi⟩ := bb
      simp only [axisOk, Bool.not_true, Bool.false_or, decide_eq_false_iff_not,
        Option.some.injEq, Prod.mk.injEq, true_and]
      constructor
      · rintro hn lo' hi' ⟨rfl, rfl⟩
        exact hn
      · intro h
        exact h lo hi ⟨rfl, rfl⟩

theorem configure_error_iff (c : DomainConfig) :
    (∃ e, configure c = Except.error e) ↔
      (axisOk c.xbounds c.periodic_in_x = false ∨ axisOk c.ybounds c.periodic_in_y = false ∨
        axisOk c.zbounds c.periodic_in_z = false) := by
  unfold configure
  by_cases hcond : (axisOk c.xbounds c.periodic_in_x && axisOk c.ybounds c.periodic_in_y &&
      axisOk c.zbounds c.periodic_in_z) = true
  · rw [if_pos hcond]
    simp only [Bool.and_eq_true] at hcond
    constructor
    · rintro ⟨e, he⟩
      exact Except.noConfusion he
    · rintro (h | h | h) <;> simp_all
  · rw [if_neg hcond]
    constructor
    · intro _
      by_cases hx : axisOk c.xbounds c.periodic_in_x = false
      · exact Or.inl hx
      by_cases hy : axisOk c.ybounds c.periodic_in_y = false
      · exact Or.inr (Or.inl hy)
      by_cases hz : axisOk c.zbounds c.periodic_in_z = false
      · exact Or.inr (Or.inr hz)
      exfalso
      apply hcond
      rw [Bool.not_eq_false] at hx hy hz
      rw [hx, hy, hz]
      rfl
    · intro _
      exact ⟨ConfigurationError.invalidPeriodicBounds, rfl⟩

/-- C5: after configuring a DomainManager with periodicity enabled on a
subset of axes (e.g. only x), the introspection flags report exactly
that configuration: `periodic_in_x`, `periodic_in_y`, `periodic_in_z`
are each true exactly for the axes configured periodic, and
`is_periodic` is true iff any axis is periodic. -/
theorem c5_periodicity_flags (c : DomainConfig) (dm : DomainManager)
    (h : configure c = Except.ok dm) :
    dm.periodic_in_x = c.periodic_in_x ∧ dm.periodic_in_y = c.periodic_in_y ∧
      dm.periodic_in_z = c.periodic_in_z ∧
      dm.is_periodic = (c.periodic_in_x || c.periodic_in_y || c.periodic_in_z) := by
  unfold configure at h
  by_cases hcond : (axisOk c.xbounds c.periodic_in_x && axisOk c.ybounds c.periodic_in_y &&
      axisOk c.zbounds c.periodic_in_z) = true
  · rw [if_pos hcond] at h
    injection h with h
    subst h
    exact ⟨rfl, rfl, rfl, rfl⟩
  · rw [if_neg hcond] at h
    exact Except.noConfusion h

/-- Witness for C5 at the 2D channel configuration (periodic in x with
bounds `[0, 1]`, as in `PeriodicChannel2DTestCase.setUp`). -/
theorem c5_periodicity_flags_witness :
    ({ xmin := 0, xmax := 1, periodic_in_x := true } : DomainManager).periodic_in_x =
        ({ xbounds := some (0, 1), periodic_in_x := true } : DomainConfig).periodic_in_x ∧
      ({ xmin := 0, xmax := 1, periodic_in_x := true } : DomainManager).periodic_in_y =
        ({ xbounds := some (0, 1), periodic_in_x := true } : DomainConfig).periodic_in_y ∧
      ({ xmin := 0, xmax := 1, periodic_in_x := true } : DomainManager).periodic_in_z =
        ({ xbounds := some (0, 1), periodic_in_x := true } : DomainConfig).periodic_in_z ∧
      ({ xmin := 0, xmax := 1, periodic_in_x := true } : DomainManager).is_periodic =
        (({ xbounds := some (0, 1), periodic_in_x := true } : DomainConfig).periodic_in_x ||
          ({ xbounds := some (0, 1), periodic_in_x := true } : DomainConfig).periodic_in_y ||
          ({ xbounds := some (0, 1), periodic_in_x := true } : DomainConfig).periodic_in_z) :=
  c5_periodicity_flags { xbounds := some (0, 1), periodic_in_x := true }
    { xmin := 0, xmax := 1, periodic_in_x := true } rfl

/-- C6: adding a new named property to a particle array after backend
construction, followed by `update_domain()`, leaves the neighbor
results of every backend for every destination particle identical to
the results before the property was added (positions and smoothing
lengths unchanged). -/
theorem c6_add_property_frame (dm : DomainManager) (rs s base : ℚ) (o : ℚ × ℚ × ℚ)
    (tableSize : ℕ) (pa : ParticleArray) (nm : String) (d : Particle) :
    (addProperty pa nm).props = pa.props ++ [nm] ∧
      boxSortQuery rs s o (allParticles (updateDomain dm rs (addProperty pa nm))) d =
        boxSortQuery rs s o (allParticles (updateDomain dm rs pa)) d ∧
      llQuery rs s o (allParticles (updateDomain dm rs (addProperty pa nm))) d =
        llQuery rs s o (allParticles (updateDomain dm rs pa)) d ∧
      shQuery rs s o tableSize (allParticles (updateDomain dm rs (addProperty pa nm))) d =
        shQuery rs s o tableSize (allParticles (updateDomain dm rs pa)) d ∧
      eshQuery base rs o tableSize (allParticles (updateDomain dm rs (addProperty pa nm))) d =
        eshQuery base rs o tableSize (allParticles (updateDomain dm rs pa)) d :=
  ⟨rfl, rfl, rfl, rfl, rfl⟩

/-- C7: `update_domain()` is idempotent — calling it twice with no
intervening change to the real particles yields the very same array
(hence identical index contents), the ghost segment is recomputed from
the real particles and replaces (never appends to) whatever ghost
segment was there before, and the ghost count is unchanged by the
repeated call. -/
theorem c7_update_domain_idempotent (dm : DomainManager) (rs : ℚ) (pa : ParticleArray) :
    updateDomain dm rs (updateDomain dm rs pa) = updateDomain dm rs pa ∧
      (updateDomain dm rs pa).ghosts = computeGhosts dm rs pa.reals ∧
      (∀ gs : List Ghost, updateDomain dm rs { pa with ghosts := gs } = updateDomain dm rs pa) ∧
      (updateDomain dm rs (updateDomain dm rs pa)).ghosts.length =
        (updateDomain dm rs pa).ghosts.length :=
  ⟨rfl, rfl, fun _ => rfl, rfl⟩

/-- C8: `configure` fails with a `ConfigurationError` if and only if
some axis marked periodic lacks bounds or has `min >= max`; the error
is produced at configuration time by the (pure, never-retrying)
validation itself, while zero particles yield the empty valid bounding
box rather than an error. -/
theorem c8_configure_validation (rs : ℚ) :
    (∀ c : DomainConfig,
        (∃ e, configure c = Except.error e) ↔
          ((c.periodic_in_x = true ∧ ∀ lo hi, c.xbounds = some (lo, hi) → ¬lo < hi) ∨
            (c.periodic_in_y = true ∧ ∀ lo hi, c.ybounds = some (lo, hi) → ¬lo < hi) ∨
            (c.periodic_in_z = true ∧ ∀ lo hi, c.zbounds = some (lo, hi) → ¬lo < hi))) ∧
      computeBBox rs [] = {} ∧ (computeBBox rs []).valid := by
  refine ⟨fun c => ?_, rfl, le_refl 0, le_refl 0, le_refl 0⟩
  rw [configure_error_iff c, axisOk_false_iff, axisOk_false_iff, axisOk_false_iff]

/-- C9: the thread-parallel insertion merge of the build is
deterministic regardless of the thread count — with any positive number
of worker threads the merged per-cell contents equal (as multisets) the
single-threaded cell contents, and consequently the query over the
parallel build returns the same results as the single-threaded one. -/
theorem c9_parallel_build_deterministic (t : ℕ) (rs s : ℚ) (o : ℚ × ℚ × ℚ)
    (ps : List Particle) (d : Particle) (c : ℤ × ℤ × ℤ) (ht : 0 < t) :
    ((parCellBucket t s o ps c : List ℕ) : Multiset ℕ) = ((cellBucket s o ps c : List ℕ) : Multiset ℕ) ∧
      parBoxSortQuery t rs s o ps d = boxSortQuery rs s o ps d := by
  have hpar : ∀ c', parCellBucket t s o ps c' = cellBucket s o ps c' := by
    intro c'
    unfold parCellBucket cellBucket
    rw [filter_flatten_map]
    rw [chunkList_flatten _ t _ (by simpa using len_le_chunks ps.length t ht)]
  constructor
  · rw [hpar c]
  · unfold parBoxSortQuery boxSortQuery
    congr 1
    apply congrArg
    funext off
    exact hpar _

/-- Witness for C9: two worker threads over a three-particle array give
the same cell contents and query results as one thread. -/
theorem c9_parallel_build_deterministic_witness :
    ((parCellBucket 2 1 (0, 0, 0) [⟨0, 0, 0, 1⟩, ⟨1, 0, 0, 1⟩, ⟨3, 0, 0, 1⟩] (0, 0, 0) :
        List ℕ) : Multiset ℕ) =
        ((cellBucket 1 (0, 0, 0) [⟨0, 0, 0, 1⟩, ⟨1, 0, 0, 1⟩, ⟨3, 0, 0, 1⟩] (0, 0, 0) :
        List ℕ) : Multiset ℕ) ∧
      parBoxSortQuery 2 1 1 (0, 0, 0) [⟨0, 0, 0, 1⟩, ⟨1, 0, 0, 1⟩, ⟨3, 0, 0, 1⟩] ⟨0, 0, 0, 1⟩ =
        boxSortQuery 1 1 (0, 0, 0) [⟨0, 0, 0, 1⟩, ⟨1, 0, 0, 1⟩, ⟨3, 0, 0, 1⟩] ⟨0, 0, 0, 1⟩ :=
  c9_parallel_build_deterministic 2 1 1 (0, 0, 0)
    [⟨0, 0, 0, 1⟩, ⟨1, 0, 0, 1⟩, ⟨3, 0, 0, 1⟩] ⟨0, 0, 0, 1⟩ (0, 0, 0) (by decide)

/-- C10: constructing a DomainManager that supplies bounds and
periodicity for only a strict subset of axes (only `zmin`/`zmax` with
`periodic_in_z`, as in `TestPeriodicZ3D`) succeeds without error, and
every axis not mentioned defaults to non-periodic. -/
theorem c10_partial_construction (a b : ℚ) (hab : a < b) :
    ∃ dm, configure { zbounds := some (a, b), periodic_in_z := true } = Except.ok dm ∧
      dm.periodic_in_x = false ∧ dm.periodic_in_y = false ∧ dm.periodic_in_z = true := by
  refine ⟨{ zmin := a, zmax := b, periodic_in_z := true }, ?_, rfl, rfl, rfl⟩
  unfold configure
  rw [if_pos]
  · rfl
  · simp [axisOk, hab]

/-- Witness for C10 at the concrete bounds `[-1/2, 1/2]` of
`TestPeriodicZ3D`. -/
theorem c10_partial_construction_witness :
    ∃ dm, configure { zbounds := some (-(1 : ℚ) / 2, (1 : ℚ) / 2), periodic_in_z := true } =
        Except.ok dm ∧
      dm.periodic_in_x = false ∧ dm.periodic_in_y = false ∧ dm.periodic_in_z = true :=
  c10_partial_construction (-(1 : ℚ) / 2) ((1 : ℚ) / 2) (by norm_num)

/-- C1: for every non-periodic configuration and every destination
particle, the neighbor set returned by `get_nearest_particles` is the
same multiset of particle indices (order ignored) under each of the
four backends: box-sort, linked-list, spatial-hash, and extended
spatial-hash (the grid backends run at the cell size derived from the
global maximum smoothing length, §3 Cell). -/
theorem c1_cross_backend_equivalence (dm : DomainManager) (rs base : ℚ) (o : ℚ × ℚ × ℚ)
    (tableSize : ℕ) (pa : ParticleArray) (d : Particle) (ps : List Particle) (s : ℚ)
    (hps : ps = allParticles (updateDomain dm rs pa)) (hs : s = rs * globalMaxH ps d)
    (hnp : dm.is_periodic = false) (hrs : 0 < rs) (hd : 0 < d.h)
    (hh : ∀ p ∈ pa.reals, 0 < p.h) (hbase : 0 < base) :
    ((llQuery rs s o ps d : List ℕ) : Multiset ℕ) = ((boxSortQuery rs s o ps d : List ℕ) : Multiset ℕ) ∧
      ((shQuery rs s o tableSize ps d : List ℕ) : Multiset ℕ) =
        ((boxSortQuery rs s o ps d : List ℕ) : Multiset ℕ) ∧
      ((eshQuery base rs o tableSize ps d : List ℕ) : Multiset ℕ) =
        ((boxSortQuery rs s o ps d : List ℕ) : Multiset ℕ) := by
  have hreals : allParticles (updateDomain dm rs pa) = pa.reals := by
    unfold allParticles updateDomain
    rw [computeGhosts_nonperiodic hnp]
    simp
  rw [hreals] at hps
  subst hps
  subst hs
  obtain ⟨hs_pos, hcover⟩ := maxH_coverage hrs hd hh
  have hbs := boxSort_perm_brute hs_pos hcover (o := o)
  refine ⟨?_, ?_, ?_⟩
  · exact Multiset.coe_eq_coe.mpr (llQuery_perm_boxSort rs _ o pa.reals d)
  · rw [shQuery_eq_boxSort]
  · exact Multiset.coe_eq_coe.mpr
      ((eshQuery_perm_brute hbase hrs hd hh).trans hbs.symm)

/-- Witness for C1: a concrete non-periodic three-particle
configuration evaluated under all four backends. -/
theorem c1_cross_backend_equivalence_witness :
    ((llQuery 1 1 (0, 0, 0) [⟨0, 0, 0, 1⟩, ⟨1, 0, 0, 1⟩, ⟨3, 0, 0, 1⟩] ⟨0, 0, 0, 1⟩ :
        List ℕ) : Multiset ℕ) =
        ((boxSortQuery 1 1 (0, 0, 0) [⟨0, 0, 0, 1⟩, ⟨1, 0, 0, 1⟩, ⟨3, 0, 0, 1⟩] ⟨0, 0, 0, 1⟩ :
        List ℕ) : Multiset ℕ) ∧
      ((shQuery 1 1 (0, 0, 0) 7 [⟨0, 0, 0, 1⟩, ⟨1, 0, 0, 1⟩, ⟨3, 0, 0, 1⟩] ⟨0, 0, 0, 1⟩ :
        List ℕ) : Multiset ℕ) =
        ((boxSortQuery 1 1 (0, 0, 0) [⟨0, 0, 0, 1⟩, ⟨1, 0, 0, 1⟩, ⟨3, 0, 0, 1⟩] ⟨0, 0, 0, 1⟩ :
        List ℕ) : Multiset ℕ) ∧
      ((eshQuery 1 1 (0, 0, 0) 7 [⟨0, 0, 0, 1⟩, ⟨1, 0, 0, 1⟩, ⟨3, 0, 0, 1⟩] ⟨0, 0, 0, 1⟩ :
        List ℕ) : Multiset ℕ) =
        ((boxSortQuery 1 1 (0, 0, 0) [⟨0, 0, 0, 1⟩, ⟨1, 0, 0, 1⟩, ⟨3, 0, 0, 1⟩] ⟨0, 0, 0, 1⟩ :
        List ℕ) : Multiset ℕ) :=
  c1_cross_backend_equivalence {} 1 1 (0, 0, 0) 7
    { reals := [⟨0, 0, 0, 1⟩, ⟨1, 0, 0, 1⟩, ⟨3, 0, 0, 1⟩], ghosts := [], props := [] }
    ⟨0, 0, 0, 1⟩ [⟨0, 0, 0, 1⟩, ⟨1, 0, 0, 1⟩, ⟨3, 0, 0, 1⟩] 1
    (by decide) (by norm_num [globalMaxH]) (by decide) (by decide) (by decide) (by decide)
    (by decide)

/-- C4: every backend's query applies one and the same neighbor-radius
convention — `j` is a neighbor of destination `d` exactly when
`|pos_d - pos_j| <= radius_scale * 0.5 * (h_d + h_j)` (the per-pair
averaging convention, compared here on squared quantities), uniformly
across all four backends. -/
theorem c4_uniform_radius_convention (rs s base : ℚ) (o : ℚ × ℚ × ℚ) (tableSize : ℕ)
    (ps : List Particle) (d : Particle) (j : ℕ) (hs : 0 < s)
    (hcov : ∀ p ∈ ps, 0 ≤ rs * ((d.h + p.h) / 2) ∧ rs * ((d.h + p.h) / 2) ≤ s)
    (hbase : 0 < base) (hrs : 0 < rs) (hd : 0 < d.h) (hh : ∀ p ∈ ps, 0 < p.h) :
    (j ∈ boxSortQuery rs s o ps d ↔
        j < ps.length ∧ dist2 d (pAt ps j) ≤ (rs * ((d.h + (pAt ps j).h) / 2)) ^ 2) ∧
      (j ∈ llQuery rs s o ps d ↔
        j < ps.length ∧ dist2 d (pAt ps j) ≤ (rs * ((d.h + (pAt ps j).h) / 2)) ^ 2) ∧
      (j ∈ shQuery rs s o tableSize ps d ↔
        j < ps.length ∧ dist2 d (pAt ps j) ≤ (rs * ((d.h + (pAt ps j).h) / 2)) ^ 2) ∧
      (j ∈ eshQuery base rs o tableSize ps d ↔
        j < ps.length ∧ dist2 d (pAt ps j) ≤ (rs * ((d.h + (pAt ps j).h) / 2)) ^ 2) := by
  have hbs := mem_boxSortQuery (o := o) (j := j) hs hcov
  refine ⟨hbs, ?_, ?_, mem_eshQuery hbase hrs hd hh⟩
  · rw [(llQuery_perm_boxSort rs s o ps d).mem_iff]
    exact hbs
  · rw [shQuery_eq_boxSort]
    exact hbs

/-- Witness for C4 at a concrete configuration and index. -/
theorem c4_uniform_radius_convention_witness :
    (1 ∈ boxSortQuery 1 1 (0, 0, 0) [⟨0, 0, 0, 1⟩, ⟨1, 0, 0, 1⟩, ⟨3, 0, 0, 1⟩] ⟨0, 0, 0, 1⟩ ↔
        1 < ([⟨0, 0, 0, 1⟩, ⟨1, 0, 0, 1⟩, ⟨3, 0, 0, 1⟩] : List Particle).length ∧
          dist2 ⟨0, 0, 0, 1⟩ (pAt [⟨0, 0, 0, 1⟩, ⟨1, 0, 0, 1⟩, ⟨3, 0, 0, 1⟩] 1) ≤
            (1 * (((⟨0, 0, 0, 1⟩ : Particle).h +
              (pAt [⟨0, 0, 0, 1⟩, ⟨1, 0, 0, 1⟩, ⟨3, 0, 0, 1⟩] 1).h) / 2)) ^ 2) ∧
      (1 ∈ llQuery 1 1 (0, 0, 0) [⟨0, 0, 0, 1⟩, ⟨1, 0, 0, 1⟩, ⟨3, 0, 0, 1⟩] ⟨0, 0, 0, 1⟩ ↔
        1 < ([⟨0, 0, 0, 1⟩, ⟨1, 0, 0, 1⟩, ⟨3, 0, 0, 1⟩] : List Particle).length ∧
          dist2 ⟨0, 0, 0, 1⟩ (pAt [⟨0, 0, 0, 1⟩, ⟨1, 0, 0, 1⟩, ⟨3, 0, 0, 1⟩] 1) ≤
            (1 * (((⟨0, 0, 0, 1⟩ : Particle).h +
              (pAt [⟨0, 0, 0, 1⟩, ⟨1, 0, 0, 1⟩, ⟨3, 0, 0, 1⟩] 1).h) / 2)) ^ 2) ∧
      (1 ∈ shQuery 1 1 (0, 0, 0) 7 [⟨0, 0, 0, 1⟩, ⟨1, 0, 0, 1⟩, ⟨3, 0, 0, 1⟩] ⟨0, 0, 0, 1⟩ ↔
        1 < ([⟨0, 0, 0, 1⟩, ⟨1, 0, 0, 1⟩, ⟨3, 0, 0, 1⟩] : List Particle).length ∧
          dist2 ⟨0, 0, 0, 1⟩ (pAt [⟨0, 0, 0, 1⟩, ⟨1, 0, 0, 1⟩, ⟨3, 0, 0, 1⟩] 1) ≤
            (1 * (((⟨0, 0, 0, 1⟩ : Particle).h +
              (pAt [⟨0, 0, 0, 1⟩, ⟨1, 0, 0, 1⟩, ⟨3, 0, 0, 1⟩] 1).h) / 2)) ^ 2) ∧
      (1 ∈ eshQuery 1 1 (0, 0, 0) 7 [⟨0, 0, 0, 1⟩, ⟨1, 0, 0, 1⟩, ⟨3, 0, 0, 1⟩] ⟨0, 0, 0, 1⟩ ↔
        1 < ([⟨0, 0, 0, 1⟩, ⟨1, 0, 0, 1⟩, ⟨3, 0, 0, 1⟩] : List Particle).length ∧
          dist2 ⟨0, 0, 0, 1⟩ (pAt [⟨0, 0, 0, 1⟩, ⟨1, 0, 0, 1⟩, ⟨3, 0, 0, 1⟩] 1) ≤
            (1 * (((⟨0, 0, 0, 1⟩ : Particle).h +
              (pAt [⟨0, 0, 0, 1⟩, ⟨1, 0, 0, 1⟩, ⟨3, 0, 0, 1⟩] 1).h) / 2)) ^ 2) :=
  c4_uniform_radius_convention 1 1 1 (0, 0, 0) 7 [⟨0, 0, 0, 1⟩, ⟨1, 0, 0, 1⟩, ⟨3, 0, 0, 1⟩]
    ⟨0, 0, 0, 1⟩ 1 (by decide) (by intro p hp; fin_cases hp <;> norm_num) (by decide)
    (by decide) (by decide) (by decide)

/-- C2: `update_ghosts` synthesizes ghosts for every periodic axis with
the correct sign — on each of the three axes the full-period shift
`+(max - min)` is applicable exactly when the particle is within one
interaction radius of that axis's `min` boundary, and `-(max - min)`
exactly when it is within one radius of `max` —, and for every
applicable periodic-axis combination it synthesizes exactly one ghost
of the particle (count one over the whole regenerated ghost segment),
translated by the full period on each involved axis and carrying the
correct back-reference; consequently a destination particle within the
correct translated distance of that combination's image finds the
opposite-side counterpart among its neighbors (among the positions of
the indices returned by the box-sort query over the updated real+ghost
array). -/
theorem c2_update_ghosts_boundary (dm : DomainManager) (rs : ℚ) (o : ℚ × ℚ × ℚ)
    (pa : ParticleArray) (j : ℕ) (d : Particle) (t : ℚ × ℚ × ℚ)
    (hrs : 0 < rs) (hd : 0 < d.h) (hh : ∀ p ∈ pa.reals, 0 < p.h)
    (hvx : dm.periodic_in_x = true → dm.xmin < dm.xmax)
    (hvy : dm.periodic_in_y = true → dm.ymin < dm.ymax)
    (hvz : dm.periodic_in_z = true → dm.zmin < dm.zmax)
    (hj : j < pa.reals.length)
    (htx : t.1 ∈ 0 :: xShifts dm rs (pAt pa.reals j))
    (hty : t.2.1 ∈ 0 :: yShifts dm rs (pAt pa.reals j))
    (htz : t.2.2 ∈ 0 :: zShifts dm rs (pAt pa.reals j))
    (htnz : t ≠ ((0 : ℚ), (0 : ℚ), (0 : ℚ)))
    (hdist : dist2 d (translate (pAt pa.reals j) t) ≤
      (rs * ((d.h + (pAt pa.reals j).h) / 2)) ^ 2) :
    (dm.xmax - dm.xmin ∈ xShifts dm rs (pAt pa.reals j) ↔
        dm.periodic_in_x = true ∧ (pAt pa.reals j).x ≤ dm.xmin + rs * (pAt pa.reals j).h) ∧
      (-(dm.xmax - dm.xmin) ∈ xShifts dm rs (pAt pa.reals j) ↔
        dm.periodic_in_x = true ∧ dm.xmax - rs * (pAt pa.reals j).h ≤ (pAt pa.reals j).x) ∧
      (dm.ymax - dm.ymin ∈ yShifts dm rs (pAt pa.reals j) ↔
        dm.periodic_in_y = true ∧ (pAt pa.reals j).y ≤ dm.ymin + rs * (pAt pa.reals j).h) ∧
      (-(dm.ymax - dm.ymin) ∈ yShifts dm rs (pAt pa.reals j) ↔
        dm.periodic_in_y = true ∧ dm.ymax - rs * (pAt pa.reals j).h ≤ (pAt pa.reals j).y) ∧
      (dm.zmax - dm.zmin ∈ zShifts dm rs (pAt pa.reals j) ↔
        dm.periodic_in_z = true ∧ (pAt pa.reals j).z ≤ dm.zmin + rs * (pAt pa.reals j).h) ∧
      (-(dm.zmax - dm.zmin) ∈ zShifts dm rs (pAt pa.reals j) ↔
        dm.periodic_in_z = true ∧ dm.zmax - rs * (pAt pa.reals j).h ≤ (pAt pa.reals j).z) ∧
      t ∈ shiftCombos dm rs (pAt pa.reals j) ∧
      (updateDomain dm rs pa).ghosts.count
          { p := translate (pAt pa.reals j) t, src := j } = 1 ∧
      translate (pAt pa.reals j) t ∈
        (boxSortQuery rs (rs * globalMaxH (allParticles (updateDomain dm rs pa)) d) o
            (allParticles (updateDomain dm rs pa)) d).map
          (fun k => pAt (allParticles (updateDomain dm rs pa)) k) := by
  have ht : t ∈ shiftCombos dm rs (pAt pa.reals j) :=
    (mem_shiftCombos t).mpr ⟨htx, hty, htz, htnz⟩
  have hg : ({ p := translate (pAt pa.reals j) t, src := j } : Ghost) ∈
      computeGhosts dm rs pa.reals := ghost_mem_of_combo hj ht
  refine ⟨mem_xShifts_plus hvx, mem_xShifts_minus hvx, mem_yShifts_plus hvy,
    mem_yShifts_minus hvy, mem_zShifts_plus hvz, mem_zShifts_minus hvz, ht, ?_, ?_⟩
  · show (computeGhosts dm rs pa.reals).count _ = 1
    exact List.count_eq_one_of_mem (computeGhosts_nodup hvx hvy hvz pa.reals) hg
  · have hmem : translate (pAt pa.reals j) t ∈
        (computeGhosts dm rs pa.reals).map Ghost.p :=
      List.mem_map_of_mem Ghost.p hg
    obtain ⟨gi, hgi, hgeq⟩ := List.mem_iff_getElem.mp hmem
    have hk0 : pa.reals.length + gi <
        (pa.reals ++ (computeGhosts dm rs pa.reals).map Ghost.p).length := by
      rw [List.length_append]
      omega
    have hk : pa.reals.length + gi < (allParticles (updateDomain dm rs pa)).length := hk0
    have hpAt : pAt (allParticles (updateDomain dm rs pa)) (pa.reals.length + gi) =
        translate (pAt pa.reals j) t := by
      show (allParticles (updateDomain dm rs pa)).getD (pa.reals.length + gi) ⟨0, 0, 0, 0⟩ =
        translate (pAt pa.reals j) t
      rw [List.getD_eq_getElem _ _ hk]
      show (pa.reals ++ (computeGhosts dm rs pa.reals).map Ghost.p)[pa.reals.length + gi] =
        translate (pAt pa.reals j) t
      rw [List.getElem_append_right (by omega)]
      have hidx : pa.reals.length + gi - pa.reals.length = gi := by omega
      simp only [hidx]
      exact hgeq
    obtain ⟨hs_pos, hcover⟩ := maxH_coverage hrs hd (allParticles_h_pos hh)
    refine List.mem_map.mpr ⟨pa.reals.length + gi, ?_, hpAt⟩
    refine (mem_boxSortQuery hs_pos hcover).mpr ⟨hk, ?_⟩
    rw [hpAt]
    exact hdist

/-- Witness for C2: the two-particle periodic channel on `[0, 1]` with
the destination near `xmin`, its counterpart near `xmax`, and the
x-axis `-period` combination. -/
theorem c2_update_ghosts_boundary_witness :
    (({ xmin := 0, xmax := 1, periodic_in_x := true } : DomainManager).xmax -
          ({ xmin := 0, xmax := 1, periodic_in_x := true } : DomainManager).xmin ∈
          xShifts { xmin := 0, xmax := 1, periodic_in_x := true } 1
            (pAt [⟨1 / 20, 0, 0, 1 / 10⟩, ⟨19 / 20, 0, 0, 1 / 10⟩] 1) ↔
        ({ xmin := 0, xmax := 1, periodic_in_x := true } : DomainManager).periodic_in_x = true ∧
          (pAt [⟨1 / 20, 0, 0, 1 / 10⟩, ⟨19 / 20, 0, 0, 1 / 10⟩] 1).x ≤
            ({ xmin := 0, xmax := 1, periodic_in_x := true } : DomainManager).xmin +
              1 * (pAt [⟨1 / 20, 0, 0, 1 / 10⟩, ⟨19 / 20, 0, 0, 1 / 10⟩] 1).h) ∧
      (-(({ xmin := 0, xmax := 1, periodic_in_x := true } : DomainManager).xmax -
            ({ xmin := 0, xmax := 1, periodic_in_x := true } : DomainManager).xmin) ∈
          xShifts { xmin := 0, xmax := 1, periodic_in_x := true } 1
            (pAt [⟨1 / 20, 0, 0, 1 / 10⟩, ⟨19 / 20, 0, 0, 1 / 10⟩] 1) ↔
        ({ xmin := 0, xmax := 1, periodic_in_x := true } : DomainManager).periodic_in_x = true ∧
          ({ xmin := 0, xmax := 1, periodic_in_x := true } : DomainManager).xmax -
              1 * (pAt [⟨1 / 20, 0, 0, 1 / 10⟩, ⟨19 / 20, 0, 0, 1 / 10⟩] 1).h ≤
            (pAt [⟨1 / 20, 0, 0, 1 / 10⟩, ⟨19 / 20, 0, 0, 1 / 10⟩] 1).x) ∧
      (({ xmin := 0, xmax := 1, periodic_in_x := true } : DomainManager).ymax -
          ({ xmin := 0, xmax := 1, periodic_in_x := true } : DomainManager).ymin ∈
          yShifts { xmin := 0, xmax := 1, periodic_in_x := true } 1
            (pAt [⟨1 / 20, 0, 0, 1 / 10⟩, ⟨19 / 20, 0, 0, 1 / 10⟩] 1) ↔
        ({ xmin := 0, xmax := 1, periodic_in_x := true } : DomainManager).periodic_in_y = true ∧
          (pAt [⟨1 / 20, 0, 0, 1 / 10⟩, ⟨19 / 20, 0, 0, 1 / 10⟩] 1).y ≤
            ({ xmin := 0, xmax := 1, periodic_in_x := true } : DomainManager).ymin +
              1 * (pAt [⟨1 / 20, 0, 0, 1 / 10⟩, ⟨19 / 20, 0, 0, 1 / 10⟩] 1).h) ∧
      (-(({ xmin := 0, xmax := 1, periodic_in_x := true } : DomainManager).ymax -
            ({ xmin := 0, xmax := 1, periodic_in_x := true } : DomainManager).ymin) ∈
          yShifts { xmin := 0, xmax := 1, periodic_in_x := true } 1
            (pAt [⟨1 / 20, 0, 0, 1 / 10⟩, ⟨19 / 20, 0, 0, 1 / 10⟩] 1) ↔
        ({ xmin := 0, xmax := 1, periodic_in_x := true } : DomainManager).periodic_in_y = true ∧
          ({ xmin := 0, xmax := 1, periodic_in_x := true } : DomainManager).ymax -
              1 * (pAt [⟨1 / 20, 0, 0, 1 / 10⟩, ⟨19 / 20, 0, 0, 1 / 10⟩] 1).h ≤
            (pAt [⟨1 / 20, 0, 0, 1 / 10⟩, ⟨19 / 20, 0, 0, 1 / 10⟩] 1).y) ∧
      (({ xmin := 0, xmax := 1, periodic_in_x := true } : DomainManager).zmax -
          ({ xmin := 0, xmax := 1, periodic_in_x := true } : DomainManager).zmin ∈
          zShifts { xmin := 0, xmax := 1, periodic_in_x := true } 1
            (pAt [⟨1 / 20, 0, 0, 1 / 10⟩, ⟨19 / 20, 0, 0, 1 / 10⟩] 1) ↔
        ({ xmin := 0, xmax := 1, periodic_in_x := true } : DomainManager).periodic_in_z = true ∧
          (pAt [⟨1 / 20, 0, 0, 1 / 10⟩, ⟨19 / 20, 0, 0, 1 / 10⟩] 1).z ≤
            ({ xmin := 0, xmax := 1, periodic_in_x := true } : DomainManager).zmin +
              1 * (pAt [⟨1 / 20, 0, 0, 1 / 10⟩, ⟨19 / 20, 0, 0, 1 / 10⟩] 1).h) ∧
      (-(({ xmin := 0, xmax := 1, periodic_in_x := true } : DomainManager).zmax -
            ({ xmin := 0, xmax := 1, periodic_in_x := true } : DomainManager).zmin) ∈
          zShifts { xmin := 0, xmax := 1, periodic_in_x := true } 1
            (pAt [⟨1 / 20, 0, 0, 1 / 10⟩, ⟨19 / 20, 0, 0, 1 / 10⟩] 1) ↔
        ({ xmin := 0, xmax := 1, periodic_in_x := true } : DomainManager).periodic_in_z = true ∧
          ({ xmin := 0, xmax := 1, periodic_in_x := true } : DomainManager).zmax -
              1 * (pAt [⟨1 / 20, 0, 0, 1 / 10⟩, ⟨19 / 20, 0, 0, 1 / 10⟩] 1).h ≤
            (pAt [⟨1 / 20, 0, 0, 1 / 10⟩, ⟨19 / 20, 0, 0, 1 / 10⟩] 1).z) ∧
      ((-1 : ℚ), (0 : ℚ), (0 : ℚ)) ∈
        shiftCombos { xmin := 0, xmax := 1, periodic_in_x := true } 1
          (pAt [⟨1 / 20, 0, 0, 1 / 10⟩, ⟨19 / 20, 0, 0, 1 / 10⟩] 1) ∧
      (updateDomain { xmin := 0, xmax := 1, periodic_in_x := true } 1
          { reals := [⟨1 / 20, 0, 0, 1 / 10⟩, ⟨19 / 20, 0, 0, 1 / 10⟩], ghosts := [],
            props := [] }).ghosts.count
          { p := translate (pAt [⟨1 / 20, 0, 0, 1 / 10⟩, ⟨19 / 20, 0, 0, 1 / 10⟩] 1)
              ((-1 : ℚ), (0 : ℚ), (0 : ℚ)),
            src := 1 } = 1 ∧
      translate (pAt [⟨1 / 20, 0, 0, 1 / 10⟩, ⟨19 / 20, 0, 0, 1 / 10⟩] 1)
          ((-1 : ℚ), (0 : ℚ), (0 : ℚ)) ∈
        (boxSortQuery 1
            (1 * globalMaxH
              (allParticles (updateDomain { xmin := 0, xmax := 1, periodic_in_x := true } 1
                { reals := [⟨1 / 20, 0, 0, 1 / 10⟩, ⟨19 / 20, 0, 0, 1 / 10⟩], ghosts := [],
                  props := [] }))
              ⟨1 / 20, 0, 0, 1 / 10⟩)
            (0, 0, 0)
            (allParticles (updateDomain { xmin := 0, xmax := 1, periodic_in_x := true } 1
              { reals := [⟨1 / 20, 0, 0, 1 / 10⟩, ⟨19 / 20, 0, 0, 1 / 10⟩], ghosts := [],
                props := [] }))
            ⟨1 / 20, 0, 0, 1 / 10⟩).map
          (fun k =>
            pAt (allParticles (updateDomain { xmin := 0, xmax := 1, periodic_in_x := true } 1
              { reals := [⟨1 / 20, 0, 0, 1 / 10⟩, ⟨19 / 20, 0, 0, 1 / 10⟩], ghosts := [],
                props := [] })) k) :=
  c2_update_ghosts_boundary { xmin := 0, xmax := 1, periodic_in_x := true } 1 (0, 0, 0)
    { reals := [⟨1 / 20, 0, 0, 1 / 10⟩, ⟨19 / 20, 0, 0, 1 / 10⟩], ghosts := [], props := [] }
    1 ⟨1 / 20, 0, 0, 1 / 10⟩ ((-1 : ℚ), (0 : ℚ), (0 : ℚ)) (by norm_num) (by norm_num)
    (by intro p hp; fin_cases hp <;> norm_num) (by intro h; norm_num) (by intro h; cases h)
    (by intro h; cases h) (by norm_num [pAt]) (by norm_num [pAt, xShifts])
    (by exact List.mem_cons_self 0 _) (by exact List.mem_cons_self 0 _) (by decide)
    (by norm_num [pAt, translate, dist2])

end PySPHNNPS
